import Mathlib

/-!
Shallow embedding of the equity replay engine of the libro-socios-v2
repository (app/core/services/compute_service.py of the correlativos
review tree, plus the legacy validation helpers and the reporting-layer
range utilities), together with theorems checking the natural-language
specification against it.

Conventions of the embedding: Python integers are modelled as Lean
integers; the float / arbitrary-precision decimal arithmetic used for
nominal values is modelled as exact rational arithmetic; optional record
fields are Options; Python lists of dictionaries become lists of
structures.  Comparisons that Python performs on tuples that can never
contain None inside the engine are modelled with a default of 0 for an
absent value.
-/

namespace LibroSocios

/-- Right kinds carried by a holding block.  The Python code stores them as
the string literals plena, nuda, usufructo, prenda and embargo. -/
inductive RightType where
  | plena
  | nuda
  | usufructo
  | prenda
  | embargo
  deriving DecidableEq, Repr

/-- Rank of a right kind in the lexicographic order of the corresponding
Python string literals (embargo, nuda, plena, prenda, usufructo), which is
the order in which consolidation sorts the right-type component. -/
def RightType.rank : RightType → ℕ
  | .embargo => 0
  | .nuda => 1
  | .plena => 2
  | .prenda => 3
  | .usufructo => 4

/-- A holding block: a range of units held by one holder under one right
kind.  The engine builds blocks as dictionaries whose holder id and range
bounds may be absent, hence the Options.  The derived participaciones
count stored by the Python code is always recomputed from the bounds, so
it is not carried here. -/
structure Block where
  socio_id : Option ℤ
  right_type : RightType
  rango_desde : Option ℤ
  rango_hasta : Option ℤ
  deriving DecidableEq, Repr

/-- Membership of unit u in a block's inclusive range, as a Boolean; a
block with an absent bound covers nothing. -/
def memBb (b : Block) (u : ℤ) : Bool :=
  match b.rango_desde, b.rango_hasta with
  | some a, some z => decide (a ≤ u ∧ u ≤ z)
  | _, _ => false

/-- Membership of unit u in a block's inclusive range. -/
def memB (b : Block) (u : ℤ) : Prop := memBb b u = true

instance (b : Block) (u : ℤ) : Decidable (memB b u) := by
  unfold memB; infer_instance

/-- Translation of the function split_block of compute_service.py: remove
the closed cut range from a block, producing the residual sub-blocks.  An
absent cut bound returns the block unchanged, as in the source. -/
def splitBlock (block : Block) (d h : Option ℤ) : List Block :=
  match d, h with
  | some d, some h =>
    match block.rango_desde, block.rango_hasta with
    | some a, some b =>
      if h < a ∨ d > b then [block]
      else
        (if d > a then
          [{ block with rango_desde := some a, rango_hasta := some (d - 1) }]
         else [])
          ++ (if h < b then
          [{ block with rango_desde := some (h + 1), rango_hasta := some b }]
         else [])
    | _, _ => [block]
  | _, _ => [block]

/-- Translation of len_block of compute_service.py.  The source reads both
bounds directly; inside the engine it is only applied to blocks whose
bounds are present, which the default of 0 leaves unchanged. -/
def lenBlock (b : Block) : ℤ :=
  b.rango_hasta.getD 0 - b.rango_desde.getD 0 + 1

/-- The clean step of consolidate: drop blocks with an absent bound. -/
def cleanBlocks (blocks : List Block) : List Block :=
  blocks.filter (fun b => b.rango_desde.isSome && b.rango_hasta.isSome)

/-- Sort key used by consolidate: the tuple of holder id, right type,
lower bound, upper bound, compared lexicographically as Python compares
tuples.  Holder ids are present on every block the engine ever sorts; an
absent id is keyed as 0. -/
def blockKey (b : Block) : ℤ ×ₗ (ℕ ×ₗ (ℤ ×ₗ ℤ)) :=
  toLex (b.socio_id.getD 0,
    toLex (b.right_type.rank, toLex (b.rango_desde.getD 0, b.rango_hasta.getD 0)))

/-- Comparison of blocks by their consolidation sort key. -/
def blockLeR (x y : Block) : Prop := blockKey x ≤ blockKey y

instance : DecidableRel blockLeR := fun x y =>
  inferInstanceAs (Decidable (blockKey x ≤ blockKey y))

instance : IsTotal Block blockLeR := ⟨fun x y => le_total (blockKey x) (blockKey y)⟩

instance : IsTrans Block blockLeR := ⟨fun _ _ _ h1 h2 => le_trans h1 h2⟩

/-- Adjacency test of the consolidation merge: the next block starts one
unit after the current block ends. -/
def adjacentAfter (last b : Block) : Bool :=
  match last.rango_hasta, b.rango_desde with
  | some lh, some bd => decide (bd = lh + 1)
  | _, _ => false

/-- The merge loop of consolidate: scan the sorted clean list, extending
the running block whenever the next block of the same holder and right
type starts exactly one unit later. -/
def mergeRun (last : Block) : List Block → List Block
  | [] => [last]
  | b :: rest =>
    if b.socio_id = last.socio_id ∧ b.right_type = last.right_type ∧
        adjacentAfter last b = true then
      mergeRun { last with rango_hasta := b.rango_hasta } rest
    else
      last :: mergeRun b rest

/-- Translation of consolidate of compute_service.py: drop blocks with an
absent bound, sort by holder, right type and bounds, and merge exactly
adjacent blocks of the same holder and right type.  Python's sort is
stable, and a stable sort's output is determined by the comparison, so the
stable insertion sort used here produces the very list the source
produces. -/
def consolidate (blocks : List Block) : List Block :=
  match List.insertionSort blockLeR (cleanBlocks blocks) with
  | [] => []
  | c :: rest => mergeRun c rest

/-- An equity event as the engine reads it.  Dates are modelled as natural
numbers, ordered as the ISO date strings of the source are ordered.  The
tipo field keeps the source's string literals. -/
structure Event where
  fecha : ℕ
  tipo : String
  socio_transmite : Option ℤ
  socio_adquiere : Option ℤ
  rango_desde : Option ℤ
  rango_hasta : Option ℤ
  nuevo_valor_nominal : Option ℚ
  deriving DecidableEq, Repr

/-- The alias table of enums.py mapping legacy event-type literals to the
canonical ones. -/
def eventTypeAliases : List (String × String) :=
  [("TRASMISION", "TRANSMISION"),
   ("REDENOMINACIÓN", "REDENOMINACION"),
   ("REDENOM", "REDENOMINACION"),
   ("REDEN", "REDENOMINACION"),
   ("LEVANTAMIENTO", "LEV_GRAVAMEN"),
   ("LEVANTAMIENTO_DE_GRAVAMEN", "LEV_GRAVAMEN"),
   ("ALZAR_EMBARGO", "ALZAMIENTO"),
   ("ALZAMIENTO_DE_EMBARGO", "ALZAMIENTO")]

/-- Strip leading and trailing whitespace from a string, working on the
underlying character list as Python's strip does. -/
def pyStrip (s : String) : String :=
  String.mk (((s.data.dropWhile Char.isWhitespace).reverse.dropWhile
    Char.isWhitespace).reverse)

/-- Upper-case a string character by character, as Python's upper does on
the ASCII literals the event types use. -/
def pyUpper (s : String) : String := String.mk (s.data.map Char.toUpper)

/-- Translation of normalize_event_type of enums.py: strip, upper-case and
resolve aliases. -/
def normalizeEventType (t : String) : String :=
  let u := pyUpper (pyStrip t)
  match eventTypeAliases.lookup u with
  | some c => c
  | none => u

/-- Normalization applied to every event before grouping by date. -/
def normalizeEvent (e : Event) : Event := { e with tipo := normalizeEventType e.tipo }

/-- The same-day sort key of an event: the pair of range bounds, each
defaulting to 0 when absent or zero, exactly as the source keys evaluate. -/
def rangeKey (e : Event) : ℤ ×ₗ ℤ :=
  toLex (e.rango_desde.getD 0, e.rango_hasta.getD 0)

/-- Comparison of events by their same-day sort key. -/
def eventLeR (x y : Event) : Prop := rangeKey x ≤ rangeKey y

instance : DecidableRel eventLeR := fun x y =>
  inferInstanceAs (Decidable (rangeKey x ≤ rangeKey y))

instance : IsTotal Event eventLeR := ⟨fun x y => le_total (rangeKey x) (rangeKey y)⟩

instance : IsTrans Event eventLeR := ⟨fun _ _ _ h1 h2 => le_trans h1 h2⟩

/-- Category test: retirement and amortization events. -/
def isBaja (e : Event) : Bool := e.tipo == "BAJA" || e.tipo == "RED_AMORT"

/-- Category test: transfer and succession events. -/
def isTrans (e : Event) : Bool := e.tipo == "TRANSMISION" || e.tipo == "SUCESION"

/-- Category test: issuance events. -/
def isAlta (e : Event) : Bool := e.tipo == "ALTA" || e.tipo == "AMPL_EMISION"

/-- Category test: usufruct split, pledge and seizure events. -/
def isEncumbrance (e : Event) : Bool :=
  e.tipo == "USUFRUCTO" || e.tipo == "PIGNORACION" || e.tipo == "EMBARGO"

/-- Category test: nominal-value change events. -/
def isValor (e : Event) : Bool := e.tipo == "AMPL_VALOR" || e.tipo == "RED_VALOR"

/-- Category test: redenomination events. -/
def isReden (e : Event) : Bool := e.tipo == "REDENOMINACION"

/-- The vacate step shared by retirements, transfers and usufruct splits:
split every full-ownership block of the transmitting holder around the
event range, leaving all other blocks untouched. -/
def vacate (sid : Option ℤ) (d h : Option ℤ) (blocks : List Block) : List Block :=
  blocks.flatMap (fun b =>
    if b.right_type = RightType.plena ∧ b.socio_id = sid then splitBlock b d h else [b])

/-- Application of one retirement or amortization event. -/
def applyBaja (ev : Event) (blocks : List Block) : List Block :=
  consolidate (vacate ev.socio_transmite ev.rango_desde ev.rango_hasta blocks)

/-- Application of one transfer or succession event: vacate the
transmitting holder, consolidate, append the acquiring holder's block over
the same range, consolidate again. -/
def applyTrans (ev : Event) (blocks : List Block) : List Block :=
  let vacated := consolidate (vacate ev.socio_transmite ev.rango_desde ev.rango_hasta blocks)
  consolidate (vacated ++
    [Block.mk ev.socio_adquiere RightType.plena ev.rango_desde ev.rango_hasta])

/-- Python truthiness of an optional integer: absent and zero are falsy. -/
def pyTruthy (x : Option ℤ) : Bool :=
  match x with
  | some v => v != 0
  | none => false

/-- Application of one issuance event to the pair of block list and
running unit-count watermark. -/
def applyAlta (ev : Event) (s : List Block × ℤ) : List Block × ℤ :=
  let appended := s.1 ++
    [Block.mk ev.socio_adquiere RightType.plena ev.rango_desde ev.rango_hasta]
  let total := if pyTruthy ev.rango_hasta then max s.2 (ev.rango_hasta.getD 0) else s.2
  (consolidate appended, total)

/-- Python's x or y on optional holder ids: an absent or zero first
operand falls through to the second. -/
def pyOrSocio (sa st : Option ℤ) : Option ℤ :=
  match sa with
  | some v => if v = 0 then st else some v
  | none => st

/-- Application of one usufruct, pledge or seizure event.  A usufruct
vacates the transmitter's full ownership and adds a bare-ownership and a
usufruct block; a pledge or seizure appends an overlay block for the
beneficiary, falling back to the titleholder when no beneficiary is
given. -/
def applyEnc (ev : Event) (blocks : List Block) : List Block :=
  if ev.tipo == "USUFRUCTO" then
    let vacated := vacate ev.socio_transmite ev.rango_desde ev.rango_hasta blocks
    consolidate (vacated ++
      [Block.mk ev.socio_transmite RightType.nuda ev.rango_desde ev.rango_hasta,
       Block.mk ev.socio_adquiere RightType.usufructo ev.rango_desde ev.rango_hasta])
  else
    let holder := pyOrSocio ev.socio_adquiere ev.socio_transmite
    let rt := if ev.tipo == "PIGNORACION" then RightType.prenda else RightType.embargo
    consolidate (blocks ++ [Block.mk holder rt ev.rango_desde ev.rango_hasta])

/-- Application of one nominal-value change event to the running nominal
value. -/
def applyValor (vn : ℚ) (ev : Event) : ℚ := ev.nuevo_valor_nominal.getD vn

/-- Comparison of optional holder ids by their integer value, an absent id
keyed as 0; holder ids are present on every block the engine sorts. -/
def socioLeR (x y : Option ℤ) : Prop := x.getD 0 ≤ y.getD 0

instance : DecidableRel socioLeR := fun x y =>
  inferInstanceAs (Decidable (x.getD 0 ≤ y.getD 0))

instance : IsTotal (Option ℤ) socioLeR := ⟨fun x y => le_total (x.getD 0) (y.getD 0)⟩

instance : IsTrans (Option ℤ) socioLeR := ⟨fun _ _ _ h1 h2 => le_trans h1 h2⟩

/-- Holder ids of the current full-ownership blocks, deduplicated keeping
first occurrences and sorted ascending, as the redenomination step sorts
the keys of its per-holder totals dictionary. -/
def plenaSocios (blocks : List Block) : List (Option ℤ) :=
  List.insertionSort socioLeR
    (((blocks.filter (fun b => b.right_type = RightType.plena)).map
      Block.socio_id).dedup)

/-- Summed full-ownership length currently held by one holder. -/
def currentOf (blocks : List Block) (s : Option ℤ) : ℤ :=
  ((blocks.filter (fun b =>
    b.right_type = RightType.plena ∧ b.socio_id = s)).map lenBlock).sum

/-- Sum of the lengths of all full-ownership blocks, the end-of-day
recomputation of the outstanding unit count. -/
def plenaSum (blocks : List Block) : ℤ :=
  ((blocks.filter (fun b => b.right_type = RightType.plena)).map lenBlock).sum

/-- Round a rational to the nearest integer with ties to even, the tie
rule of Python's round on the values the agreement check compares. -/
def roundHalfEven (x : ℚ) : ℤ :=
  if x - ⌊x⌋ < 1/2 then ⌊x⌋
  else if 1/2 < x - ⌊x⌋ then ⌊x⌋ + 1
  else if Even ⌊x⌋ then ⌊x⌋ else ⌊x⌋ + 1

/-- Round a declared nominal value to 6 decimal places, modelling the
round(v, 6) call of the redenomination agreement check. -/
def round6 (x : ℚ) : ℚ := (roundHalfEven (x * 1000000) : ℚ) / 1000000

/-- The exact rational share of one holder under reallocation. -/
def exactQ (cur : Option ℤ → ℤ) (newT oldT : ℤ) (s : Option ℤ) : ℚ :=
  ((cur s * newT : ℤ) : ℚ) / (oldT : ℚ)

/-- The floored base allocation of one holder. -/
def baseI (cur : Option ℤ → ℤ) (newT oldT : ℤ) (s : Option ℤ) : ℤ :=
  ⌊exactQ cur newT oldT s⌋

/-- The fractional part of one holder's exact share. -/
def fracQ (cur : Option ℤ → ℤ) (newT oldT : ℤ) (s : Option ℤ) : ℚ :=
  exactQ cur newT oldT s - baseI cur newT oldT s

/-- Sum of the floored base allocations. -/
def asignadas (socios : List (Option ℤ)) (cur : Option ℤ → ℤ) (newT oldT : ℤ) : ℤ :=
  (socios.map (baseI cur newT oldT)).sum

/-- The remainder of units still to distribute after the base
allocations. -/
def restoI (socios : List (Option ℤ)) (cur : Option ℤ → ℤ) (newT oldT : ℤ) : ℤ :=
  newT - asignadas socios cur newT oldT

/-- The remainder-distribution order: descending fractional part, ties
broken by ascending holder id, as the key of the source's descending
sort. -/
def fracGeR (cur : Option ℤ → ℤ) (newT oldT : ℤ) (x y : Option ℤ) : Prop :=
  fracQ cur newT oldT y < fracQ cur newT oldT x ∨
    (fracQ cur newT oldT x = fracQ cur newT oldT y ∧ x.getD 0 ≤ y.getD 0)

instance (cur : Option ℤ → ℤ) (newT oldT : ℤ) :
    DecidableRel (fracGeR cur newT oldT) := fun x y =>
  inferInstanceAs (Decidable (fracQ cur newT oldT y < fracQ cur newT oldT x ∨
    (fracQ cur newT oldT x = fracQ cur newT oldT y ∧ x.getD 0 ≤ y.getD 0)))

instance (cur : Option ℤ → ℤ) (newT oldT : ℤ) :
    IsTotal (Option ℤ) (fracGeR cur newT oldT) := by
  constructor
  intro x y
  unfold fracGeR
  rcases lt_trichotomy (fracQ cur newT oldT x) (fracQ cur newT oldT y) with h | h | h
  · exact Or.inr (Or.inl h)
  · rcases le_total (x.getD 0) (y.getD 0) with h2 | h2
    · exact Or.inl (Or.inr ⟨h, h2⟩)
    · exact Or.inr (Or.inr ⟨h.symm, h2⟩)
  · exact Or.inl (Or.inl h)

instance (cur : Option ℤ → ℤ) (newT oldT : ℤ) :
    IsTrans (Option ℤ) (fracGeR cur newT oldT) := by
  constructor
  intro x y z h1 h2
  unfold fracGeR at *
  rcases h1 with h1 | ⟨h1, h1b⟩ <;> rcases h2 with h2 | ⟨h2, h2b⟩
  · exact Or.inl (lt_trans h2 h1)
  · exact Or.inl (h2 ▸ h1)
  · exact Or.inl (h1 ▸ h2)
  · exact Or.inr ⟨h1.trans h2, le_trans h1b h2b⟩

/-- The sorted remainder-distribution queue. -/
def fracsSorted (socios : List (Option ℤ)) (cur : Option ℤ → ℤ) (newT oldT : ℤ) :
    List (Option ℤ) :=
  List.insertionSort (fracGeR cur newT oldT) socios

/-- The holders that receive one extra unit: the first resto holders in
remainder-distribution order. -/
def bumped (socios : List (Option ℤ)) (cur : Option ℤ → ℤ) (newT oldT : ℤ) :
    List (Option ℤ) :=
  (fracsSorted socios cur newT oldT).take (restoI socios cur newT oldT).toNat

/-- The final integer allocation of one holder under the
largest-remainder rule. -/
def allocOf (socios : List (Option ℤ)) (cur : Option ℤ → ℤ) (newT oldT : ℤ)
    (s : Option ℤ) : ℤ :=
  baseI cur newT oldT s + (if s ∈ bumped socios cur newT oldT then 1 else 0)

/-- Rebuild one contiguous full-ownership block per holder, in list
order, starting the numbering at the given cursor and skipping holders
with no units. -/
def buildBlocks (alloc : Option ℤ → ℤ) : List (Option ℤ) → ℤ → List Block
  | [], _ => []
  | s :: rest, cursor =>
    if alloc s ≤ 0 then buildBlocks alloc rest cursor
    else
      Block.mk s RightType.plena (some cursor) (some (cursor + alloc s - 1)) ::
        buildBlocks alloc rest (cursor + alloc s)

/-- The nominal-value decision of the redenomination step: collect the
values declared by the day's redenomination events, require agreement up
to 6 decimal places, take the last declared value and require it
positive. -/
def redenNewVN (day : List Event) : Except String (Option ℚ) :=
  match (day.filter (fun e => isReden e)).filterMap Event.nuevo_valor_nominal with
  | [] => Except.ok none
  | c :: cs =>
    if ((c :: cs).map round6).all (fun v => v == round6 c) then
      let v := cs.getLastD c
      if v ≤ 0 then Except.error ("nuevo valor nominal invalido en REDENOMINACION")
      else Except.ok (some v)
    else Except.error ("valores nominales distintos en REDENOMINACION")

/-- The day-close redenomination step of the engine: per-holder
full-ownership totals, optional nominal-value change with the
capital-multiple check, and largest-remainder reallocation into compact
per-holder ranges. -/
def redenStep (day : List Event) (blocks : List Block) (vn : ℚ) (total : ℤ) :
    Except String (List Block × ℚ × ℤ) :=
  if day.any (fun e => isReden e) then
    let socios := plenaSocios blocks
    let cur := currentOf blocks
    let oldTotal := (socios.map cur).sum
    let oldCapital := vn * (oldTotal : ℚ)
    match redenNewVN day with
    | Except.error e => Except.error e
    | Except.ok newVN =>
      match
        (match newVN with
         | none => Except.ok (vn, oldTotal)
         | some v =>
           let q := oldCapital / v
           if q.den = 1 then Except.ok (v, q.num)
           else Except.error ("el capital no es multiplo del nuevo VN en REDENOMINACION") :
          Except String (ℚ × ℤ)) with
      | Except.error e => Except.error e
      | Except.ok (vn2, newTotal) =>
        if oldTotal = 0 then Except.ok (consolidate blocks, vn2, 0)
        else Except.ok
          (consolidate (buildBlocks (allocOf socios cur newTotal oldTotal) socios 1),
            vn2, newTotal)
  else Except.ok (blocks, vn, total)

/-- The running state of the engine within a replay. -/
structure EngineState where
  blocks : List Block
  valor_nominal : ℚ
  total_part : ℤ
  deriving DecidableEq, Repr

/-- Application of one day's events, already separated into the five
processing categories of the engine; the outstanding unit count is
recomputed from the full-ownership blocks at day close. -/
def applyDayCore (bajas transs altas encs valors redens : List Event)
    (st : EngineState) : Except String EngineState :=
  let b1 := bajas.foldl (fun bl ev => applyBaja ev bl) st.blocks
  let b2 := transs.foldl (fun bl ev => applyTrans ev bl) b1
  let p3 := altas.foldl (fun p ev => applyAlta ev p) (b2, st.total_part)
  let b4 := encs.foldl (fun bl ev => applyEnc ev bl) p3.1
  let vn4 := valors.foldl applyValor st.valor_nominal
  match redenStep redens b4 vn4 p3.2 with
  | Except.error e => Except.error e
  | Except.ok (b5, vn5, _) => Except.ok (EngineState.mk b5 vn5 (plenaSum b5))

/-- Application of one day's events: retirements, then transfers, then
issuances, each sorted by range key; then encumbrances and nominal-value
changes in input order; then the redenomination step. -/
def applyDay (day : List Event) (st : EngineState) : Except String EngineState :=
  applyDayCore
    (List.insertionSort eventLeR (day.filter (fun e => isBaja e)))
    (List.insertionSort eventLeR (day.filter (fun e => isTrans e)))
    (List.insertionSort eventLeR (day.filter (fun e => isAlta e)))
    (day.filter (fun e => isEncumbrance e))
    (day.filter (fun e => isValor e))
    (day.filter (fun e => isReden e))
    st

/-- Comparison of date keys. -/
def dateLeR (x y : ℕ) : Prop := x ≤ y

instance : DecidableRel dateLeR := fun x y => inferInstanceAs (Decidable (x ≤ y))

instance : IsTotal ℕ dateLeR := ⟨fun x y => le_total x y⟩

instance : IsTrans ℕ dateLeR := ⟨fun _ _ _ h1 h2 => le_trans h1 h2⟩

/-- The distinct event dates, processed in ascending order. -/
def dayKeys (events : List Event) : List ℕ :=
  List.insertionSort dateLeR ((events.map Event.fecha).dedup)

/-- Fold of the day application over the ordered date keys. -/
def foldDays (evs : List Event) : List ℕ → EngineState → Except String EngineState
  | [], st => Except.ok st
  | f :: rest, st =>
    match applyDay (evs.filter (fun e => e.fecha == f)) st with
    | Except.error e => Except.error e
    | Except.ok st2 => foldDays evs rest st2

/-- Translation of apply_events of compute_service.py: normalize the
event types, group by date, apply each day in date order, and return the
final blocks, nominal value, outstanding unit count and last processed
date (absent when no event was processed). -/
def applyEvents (events : List Event) (vn0 : ℚ) (t0 : ℤ) :
    Except String (List Block × ℚ × ℤ × Option ℕ) :=
  let evs := events.map normalizeEvent
  match foldDays evs (dayKeys evs) (EngineState.mk [] vn0 t0) with
  | Except.error e => Except.error e
  | Except.ok st =>
    Except.ok (st.blocks, st.valor_nominal, st.total_part, (dayKeys evs).getLast?)

instance {e a : Type} [DecidableEq e] [DecidableEq a] : DecidableEq (Except e a) :=
  fun x y =>
  match x, y with
  | .error u, .error v =>
    if h : u = v then isTrue (by rw [h]) else isFalse (fun hc => h (by cases hc; rfl))
  | .error _, .ok _ => isFalse (fun hc => by cases hc)
  | .ok _, .error _ => isFalse (fun hc => by cases hc)
  | .ok u, .ok v =>
    if h : u = v then isTrue (by rw [h]) else isFalse (fun hc => h (by cases hc; rfl))

/-- A block with both range bounds present. -/
def Defined (b : Block) : Prop := b.rango_desde.isSome ∧ b.rango_hasta.isSome

instance (b : Block) : Decidable (Defined b) := by
  unfold Defined; infer_instance

/-- A block whose range, when present, is not inverted. -/
def NonDeg (b : Block) : Prop :=
  ∀ a z, b.rango_desde = some a → b.rango_hasta = some z → a ≤ z

instance (b : Block) : Decidable (NonDeg b) := by
  unfold NonDeg
  rcases b.rango_desde with _ | a <;> rcases b.rango_hasta with _ | z
  · exact isTrue (by intro a z h; cases h)
  · exact isTrue (by intro a z h; cases h)
  · exact isTrue (by intro a z _ h; cases h)
  · by_cases h : a ≤ z
    · exact isTrue (by intro a2 z2 h1 h2; cases h1; cases h2; exact h)
    · exact isFalse (fun hc => h (hc a z rfl rfl))

/-- Unit u is covered for holder s under right kind rt by some block of
the list. -/
def covered (L : List Block) (s : Option ℤ) (rt : RightType) (u : ℤ) : Prop :=
  ∃ b ∈ L, b.socio_id = s ∧ b.right_type = rt ∧ memB b u

instance (L : List Block) (s : Option ℤ) (rt : RightType) (u : ℤ) :
    Decidable (covered L s rt u) := by
  unfold covered; infer_instance

/-- The blocks of a list form consecutive ranges starting at the given
cursor, each nonempty. -/
def contiguousFrom : ℤ → List Block → Prop
  | _, [] => True
  | c, b :: rest => ∃ z, b.rango_desde = some c ∧ b.rango_hasta = some z ∧ c ≤ z ∧
      contiguousFrom (z + 1) rest

/-- Comparison of unit ranges as Python compares the pairs: lexicographic
on the two bounds. -/
def rangeLeR (x y : ℤ × ℤ) : Prop := toLex x ≤ toLex y

instance : DecidableRel rangeLeR := fun x y =>
  inferInstanceAs (Decidable (toLex x ≤ toLex y))

instance : IsTotal (ℤ × ℤ) rangeLeR := ⟨fun x y => le_total (toLex x) (toLex y)⟩

instance : IsTrans (ℤ × ℤ) rangeLeR := ⟨fun _ _ _ h1 h2 => le_trans h1 h2⟩

/-- The merge loop of merge_ranges of reporting_service.py: extend the
running range whenever the next sorted range starts at or before one unit
past its end. -/
def mergeRangesRun (last : ℤ × ℤ) : List (ℤ × ℤ) → List (ℤ × ℤ)
  | [] => [last]
  | p :: rest =>
    if p.1 ≤ last.2 + 1 then mergeRangesRun (last.1, max last.2 p.2) rest
    else last :: mergeRangesRun p rest

/-- Translation of merge_ranges of reporting_service.py: sort the ranges
and merge overlapping or adjacent ones. -/
def mergeRanges (ranges : List (ℤ × ℤ)) : List (ℤ × ℤ) :=
  match List.insertionSort rangeLeR ranges with
  | [] => []
  | c :: rest => mergeRangesRun c rest

/-- Translation of subtract_one of reporting_service.py: remove one cut
range from a list of base ranges, keeping the residual pieces, dropping
empty ones and merging the result. -/
def subtractOne (base : List (ℤ × ℤ)) (cut : ℤ × ℤ) : List (ℤ × ℤ) :=
  match base with
  | [] => []
  | _ =>
    let out := base.flatMap (fun p =>
      if cut.2 < p.1 ∨ cut.1 > p.2 then [p]
      else (if p.1 < cut.1 then [(p.1, cut.1 - 1)] else [])
        ++ (if cut.2 < p.2 then [(cut.2 + 1, p.2)] else []))
    mergeRanges (out.filter (fun p => decide (p.1 ≤ p.2)))

/-- Membership of a unit in a list of inclusive ranges. -/
def inRanges (l : List (ℤ × ℤ)) (u : ℤ) : Prop := ∃ p ∈ l, p.1 ≤ u ∧ u ≤ p.2

instance (l : List (ℤ × ℤ)) (u : ℤ) : Decidable (inRanges l u) := by
  unfold inRanges; infer_instance

/-- One pass of the covers check of the legacy services module: subtract
one holding block from every still-needed range, dropping empty
remainders. -/
def coversStep (need : List (ℤ × ℤ)) (blk : ℤ × ℤ) : List (ℤ × ℤ) :=
  (need.flatMap (fun q =>
    if blk.2 < q.1 ∨ blk.1 > q.2 then [q]
    else (if blk.1 > q.1 then [(q.1, blk.1 - 1)] else [])
      ++ (if blk.2 < q.2 then [(blk.2 + 1, q.2)] else []))).filter
    (fun q => decide (q.1 ≤ q.2))

/-- The loop of the covers check of the legacy services module. -/
def coversAux (need : List (ℤ × ℤ)) : List (ℤ × ℤ) → Bool
  | [] => need.isEmpty
  | blk :: rest =>
    let newNeed := coversStep need blk
    if newNeed.isEmpty then true else coversAux newNeed rest

/-- Translation of the covers function of the legacy services module:
whether the holding blocks jointly cover the whole closed range d to h. -/
def covers (blocks : List (ℤ × ℤ)) (d h : ℤ) : Bool := coversAux [(d, h)] blocks

instance : DecidableEq (ℤ ×ₗ ℤ) := inferInstanceAs (DecidableEq (ℤ × ℤ))

/-- Strict comparison of events by their same-day sort key. -/
def eventLtKey (x y : Event) : Prop := rangeKey x < rangeKey y

instance : IsAntisymm Event eventLtKey :=
  ⟨fun a b h1 h2 => absurd (lt_trans h1 h2) (lt_irrefl _)⟩

instance : IsAntisymm ℕ dateLeR := ⟨fun a b h1 h2 => le_antisymm h1 h2⟩

/-- Uniqueness conditions on one day's events under which the same-day
processing order is independent of the input order: the three sorted
categories have pairwise distinct range keys, and the categories the
engine processes in input order hold at most one event each. -/
def DayUnique (day : List Event) : Prop :=
  ((day.filter (fun e => isBaja e)).map rangeKey).Nodup ∧
  ((day.filter (fun e => isTrans e)).map rangeKey).Nodup ∧
  ((day.filter (fun e => isAlta e)).map rangeKey).Nodup ∧
  (day.filter (fun e => isEncumbrance e)).length ≤ 1 ∧
  (day.filter (fun e => isValor e)).length ≤ 1 ∧
  (day.filter (fun e => isReden e)).length ≤ 1

instance (day : List Event) : Decidable (DayUnique day) := by
  unfold DayUnique; infer_instance

/-- The per-day uniqueness conditions over every processed day of a
replay. -/
def ReplayUnique (events : List Event) : Prop :=
  ∀ f ∈ dayKeys (events.map normalizeEvent),
    DayUnique ((events.map normalizeEvent).filter (fun e => e.fecha == f))

instance (events : List Event) : Decidable (ReplayUnique events) := by
  unfold ReplayUnique; infer_instance

/-- A unit that lies inside an event's requested range, both bounds
present. -/
def inEvRange (ev : Event) (u : ℤ) : Prop :=
  ∃ d h, ev.rango_desde = some d ∧ ev.rango_hasta = some h ∧ d ≤ u ∧ u ≤ h

/-- The disjointness invariant: no two full-ownership blocks of distinct
holders share a unit. -/
def InvBlocks (blocks : List Block) : Prop :=
  ∀ b1 ∈ blocks, ∀ b2 ∈ blocks,
    b1.right_type = RightType.plena → b2.right_type = RightType.plena →
    b1.socio_id ≠ b2.socio_id → ∀ u : ℤ, ¬ (memB b1 u ∧ memB b2 u)

/-- Precondition of a transfer event: the transmitting holder fully owns
the requested range in full-ownership blocks. -/
def PrecondTrans (ev : Event) (blocks : List Block) : Prop :=
  ∀ u : ℤ, inEvRange ev u → covered blocks ev.socio_transmite RightType.plena u

/-- Precondition of an issuance event: the requested range is free of
full-ownership blocks. -/
def PrecondAlta (ev : Event) (blocks : List Block) : Prop :=
  ∀ u : ℤ, inEvRange ev u → ∀ s, ¬ covered blocks s RightType.plena u

/-- Preconditions threaded along a fold of one category's events over the
block list: each event's precondition is checked against the block list
current when that event is applied. -/
def PrecondFoldP (Pre : Event → List Block → Prop)
    (app : Event → List Block → List Block) : List Event → List Block → Prop
  | [], _ => True
  | ev :: rest, bl => Pre ev bl ∧ PrecondFoldP Pre app rest (app ev bl)

/-- The block-list component of one issuance application. -/
def applyAltaB (ev : Event) (blocks : List Block) : List Block :=
  consolidate (blocks ++
    [Block.mk ev.socio_adquiere RightType.plena ev.rango_desde ev.rango_hasta])

/-- The intermediate block lists visited by a fold of one category. -/
def foldStates (app : Event → List Block → List Block) :
    List Event → List Block → List (List Block)
  | [], _ => []
  | ev :: rest, bl => app ev bl :: foldStates app rest (app ev bl)

/-- The block list left by the day-close redenomination step, when it
succeeds. -/
def redenTrace (redens : List Event) (bl : List Block) (vn : ℚ) (t : ℤ) :
    List (List Block) :=
  match redenStep redens bl vn t with
  | Except.error _ => []
  | Except.ok (b5, _, _) => [b5]

/-- Every block list the engine holds during one day: after each applied
retirement, transfer, issuance and encumbrance event, and at day close
after the redenomination step. -/
def dayStatesCore (bajas transs altas encs valors redens : List Event)
    (st : EngineState) : List (List Block) :=
  let b1 := bajas.foldl (fun bl ev => applyBaja ev bl) st.blocks
  let b2 := transs.foldl (fun bl ev => applyTrans ev bl) b1
  let p3 := altas.foldl (fun p ev => applyAlta ev p) (b2, st.total_part)
  let b4 := encs.foldl (fun bl ev => applyEnc ev bl) p3.1
  let vn4 := valors.foldl applyValor st.valor_nominal
  foldStates applyBaja bajas st.blocks ++ foldStates applyTrans transs b1 ++
    foldStates applyAltaB altas b2 ++ foldStates applyEnc encs p3.1 ++
    redenTrace redens b4 vn4 p3.2

/-- The intermediate block lists of one day, the day's events separated
into the engine's processing categories exactly as the day application
separates them. -/
def dayStates (day : List Event) (st : EngineState) : List (List Block) :=
  dayStatesCore
    (List.insertionSort eventLeR (day.filter (fun e => isBaja e)))
    (List.insertionSort eventLeR (day.filter (fun e => isTrans e)))
    (List.insertionSort eventLeR (day.filter (fun e => isAlta e)))
    (day.filter (fun e => isEncumbrance e))
    (day.filter (fun e => isValor e))
    (day.filter (fun e => isReden e))
    st

/-- The preconditions of one day: every transfer range is fully owned by
its transmitter and every issuance range is free of full ownership, each
checked against the block list current when that event is applied. -/
def PrecondDay (day : List Event) (st : EngineState) : Prop :=
  PrecondFoldP PrecondTrans applyTrans
    (List.insertionSort eventLeR (day.filter (fun e => isTrans e)))
    ((List.insertionSort eventLeR (day.filter (fun e => isBaja e))).foldl
      (fun bl ev => applyBaja ev bl) st.blocks) ∧
  PrecondFoldP PrecondAlta applyAltaB
    (List.insertionSort eventLeR (day.filter (fun e => isAlta e)))
    ((List.insertionSort eventLeR (day.filter (fun e => isTrans e))).foldl
      (fun bl ev => applyTrans ev bl)
      ((List.insertionSort eventLeR (day.filter (fun e => isBaja e))).foldl
        (fun bl ev => applyBaja ev bl) st.blocks))

/-- The day preconditions threaded along the replay's ordered date
keys. -/
def PrecondDays (evs : List Event) : List ℕ → EngineState → Prop
  | [], _ => True
  | f :: rest, st =>
    PrecondDay (evs.filter (fun e => e.fecha == f)) st ∧
      ∀ st2, applyDay (evs.filter (fun e => e.fecha == f)) st = Except.ok st2 →
        PrecondDays evs rest st2

/-- Every block list the engine holds during the replay, day by day. -/
def replayStates (evs : List Event) : List ℕ → EngineState → List (List Block)
  | [], _ => []
  | f :: rest, st =>
    dayStates (evs.filter (fun e => e.fecha == f)) st ++
      (match applyDay (evs.filter (fun e => e.fecha == f)) st with
       | Except.error _ => []
       | Except.ok st2 => replayStates evs rest st2)

/-- The replay preconditions of a full event list, from the engine's
empty initial state. -/
def PrecondReplay (events : List Event) (vn0 : ℚ) (t0 : ℤ) : Prop :=
  PrecondDays (events.map normalizeEvent)
    (dayKeys (events.map normalizeEvent)) (EngineState.mk [] vn0 t0)

theorem memB_iff (b : Block) (u : ℤ) :
    memB b u ↔ ∃ a z, b.rango_desde = some a ∧ b.rango_hasta = some z ∧ a ≤ u ∧ u ≤ z := by
  unfold memB memBb
  rcases b.rango_desde with _ | a <;> rcases b.rango_hasta with _ | z <;> simp

theorem adjacentAfter_iff (c b : Block) :
    adjacentAfter c b = true ↔
      ∃ lh, c.rango_hasta = some lh ∧ b.rango_desde = some (lh + 1) := by
  unfold adjacentAfter
  rcases c.rango_hasta with _ | lh <;> rcases b.rango_desde with _ | bd <;> simp

theorem memB_defined {b : Block} {u : ℤ} (h : memB b u) : Defined b := by
  rw [memB_iff] at h
  obtain ⟨a, z, ha, hz, _, _⟩ := h
  exact ⟨by rw [ha]; rfl, by rw [hz]; rfl⟩

theorem mergeRun_subcover (rest : List Block) :
    ∀ (c b' : Block), b' ∈ mergeRun c rest → ∀ u, memB b' u →
      ∃ b, b ∈ c :: rest ∧ b.socio_id = b'.socio_id ∧
        b.right_type = b'.right_type ∧ memB b u := by
  induction rest with
  | nil =>
    intro c b' hb' u hu
    simp only [mergeRun, List.mem_singleton] at hb'
    subst hb'
    exact ⟨b', by simp, rfl, rfl, hu⟩
  | cons b0 rest2 ih =>
    intro c b' hb' u hu
    simp only [mergeRun] at hb'
    by_cases hcond : b0.socio_id = c.socio_id ∧ b0.right_type = c.right_type ∧
        adjacentAfter c b0 = true
    · rw [if_pos hcond] at hb'
      obtain ⟨hbs, hbt, hadj⟩ := hcond
      obtain ⟨b2, hb2mem, hb2s, hb2t, hb2u⟩ := ih _ _ hb' u hu
      rcases List.mem_cons.mp hb2mem with heq | hmem
      · subst heq
        rw [memB_iff] at hb2u
        obtain ⟨a, z, ha, hz, hau, huz⟩ := hb2u
        simp only at ha hz
        obtain ⟨lh, hclh, hbd⟩ := (adjacentAfter_iff c b0).mp hadj
        by_cases hle : u ≤ lh
        · refine ⟨c, by simp, by simpa using hb2s, by simpa using hb2t, ?_⟩
          rw [memB_iff]
          exact ⟨a, lh, ha, hclh, hau, hle⟩
        · refine ⟨b0, by simp, by rw [hbs]; simpa using hb2s,
            by rw [hbt]; simpa using hb2t, ?_⟩
          rw [memB_iff]
          exact ⟨lh + 1, z, hbd, hz, by omega, huz⟩
      · exact ⟨b2, by simp [hmem], hb2s, hb2t, hb2u⟩
    · rw [if_neg hcond] at hb'
      rcases List.mem_cons.mp hb' with heq | hmem
      · subst heq
        exact ⟨b', by simp, rfl, rfl, hu⟩
      · obtain ⟨b2, hb2mem, hb2s, hb2t, hb2u⟩ := ih _ _ hmem u hu
        rcases List.mem_cons.mp hb2mem with heq | hmem2
        · subst heq
          exact ⟨b2, by simp, hb2s, hb2t, hb2u⟩
        · exact ⟨b2, by simp [hmem2], hb2s, hb2t, hb2u⟩

theorem mergeRun_covers (rest : List Block) :
    ∀ (c : Block), (∀ x ∈ c :: rest, Defined x ∧ NonDeg x) →
      ∀ b ∈ c :: rest, ∀ u, memB b u →
        ∃ b', b' ∈ mergeRun c rest ∧ b'.socio_id = b.socio_id ∧
          b'.right_type = b.right_type ∧ memB b' u := by
  induction rest with
  | nil =>
    intro c _ b hb u hu
    rcases List.mem_cons.mp hb with heq | hmem
    · subst heq
      exact ⟨b, by simp [mergeRun], rfl, rfl, hu⟩
    · cases hmem
  | cons b0 rest2 ih =>
    intro c hwf b hb u hu
    simp only [mergeRun]
    by_cases hcond : b0.socio_id = c.socio_id ∧ b0.right_type = c.right_type ∧
        adjacentAfter c b0 = true
    · rw [if_pos hcond]
      obtain ⟨hbs, hbt, hadj⟩ := hcond
      obtain ⟨lh, hclh, hbd⟩ := (adjacentAfter_iff c b0).mp hadj
      have hcdef := (hwf c (by simp)).1
      have hcnd := (hwf c (by simp)).2
      have hb0def := (hwf b0 (by simp)).1
      have hb0nd := (hwf b0 (by simp)).2
      obtain ⟨a, ha⟩ := Option.isSome_iff_exists.mp hcdef.1
      obtain ⟨z1, hz1⟩ := Option.isSome_iff_exists.mp hb0def.2
      have halh : a ≤ lh := hcnd a lh ha hclh
      have hlz1 : lh + 1 ≤ z1 := hb0nd (lh + 1) z1 hbd hz1
      have hwf2 : ∀ x ∈ ({ c with rango_hasta := b0.rango_hasta } : Block) :: rest2,
          Defined x ∧ NonDeg x := by
        intro x hx
        rcases List.mem_cons.mp hx with heq | hmem
        · subst heq
          refine ⟨⟨hcdef.1, by rw [hz1]; rfl⟩, ?_⟩
          intro a2 z2 ha2 hz2
          simp only at ha2 hz2
          rw [ha] at ha2
          rw [hz1] at hz2
          cases ha2; cases hz2
          omega
        · exact hwf x (by simp [hmem])
      rcases List.mem_cons.mp hb with heq | hmem
      · rw [heq, memB_iff] at hu
        obtain ⟨a2, z2, ha2, hz2, hau, huz⟩ := hu
        rw [ha] at ha2
        rw [hclh] at hz2
        have haa : a = a2 := by exact Option.some_inj.mp ha2
        have hzz : lh = z2 := by exact Option.some_inj.mp hz2
        obtain ⟨b', hb'mem, hb's, hb't, hb'u⟩ :=
          ih { c with rango_hasta := b0.rango_hasta } hwf2
            { c with rango_hasta := b0.rango_hasta } (by simp) u
            (by rw [memB_iff]; exact ⟨a, z1, ha, by simp [hz1], by omega, by omega⟩)
        refine ⟨b', hb'mem, ?_, ?_, hb'u⟩
        · rw [hb's, heq]
        · rw [hb't, heq]
      · rcases List.mem_cons.mp hmem with heq | hmem2
        · rw [heq, memB_iff] at hu
          obtain ⟨a2, z2, ha2, hz2, hau, huz⟩ := hu
          rw [hbd] at ha2
          rw [hz1] at hz2
          have haa : lh + 1 = a2 := by exact Option.some_inj.mp ha2
          have hzz : z1 = z2 := by exact Option.some_inj.mp hz2
          obtain ⟨b', hb'mem, hb's, hb't, hb'u⟩ :=
            ih { c with rango_hasta := b0.rango_hasta } hwf2
              { c with rango_hasta := b0.rango_hasta } (by simp) u
              (by rw [memB_iff]; exact ⟨a, z1, ha, by simp [hz1], by omega, by omega⟩)
          refine ⟨b', hb'mem, ?_, ?_, hb'u⟩
          · rw [hb's, heq]; simpa using hbs.symm
          · rw [hb't, heq]; simpa using hbt.symm
        · obtain ⟨b', hb'mem, hb's, hb't, hb'u⟩ :=
            ih { c with rango_hasta := b0.rango_hasta } hwf2 b (by simp [hmem2]) u hu
          exact ⟨b', hb'mem, hb's, hb't, hb'u⟩
    · rw [if_neg hcond]
      rcases List.mem_cons.mp hb with heq | hmem
      · subst heq
        exact ⟨b, by simp, rfl, rfl, hu⟩
      · have hwf2 : ∀ x ∈ b0 :: rest2, Defined x ∧ NonDeg x := by
          intro x hx
          exact hwf x (by simp [List.mem_cons.mp hx])
        obtain ⟨b', hb'mem, hb's, hb't, hb'u⟩ := ih _ hwf2 b hmem u hu
        exact ⟨b', by simp [hb'mem], hb's, hb't, hb'u⟩

theorem mergeRun_wf (rest : List Block) :
    ∀ (c : Block), (∀ x ∈ c :: rest, Defined x ∧ NonDeg x) →
      ∀ b' ∈ mergeRun c rest, Defined b' ∧ NonDeg b' := by
  induction rest with
  | nil =>
    intro c hwf b' hb'
    simp only [mergeRun, List.mem_singleton] at hb'
    subst hb'
    exact hwf b' (by simp)
  | cons b0 rest2 ih =>
    intro c hwf b' hb'
    simp only [mergeRun] at hb'
    by_cases hcond : b0.socio_id = c.socio_id ∧ b0.right_type = c.right_type ∧
        adjacentAfter c b0 = true
    · rw [if_pos hcond] at hb'
      obtain ⟨hbs, hbt, hadj⟩ := hcond
      obtain ⟨lh, hclh, hbd⟩ := (adjacentAfter_iff c b0).mp hadj
      have hcdef := (hwf c (by simp)).1
      have hcnd := (hwf c (by simp)).2
      have hb0def := (hwf b0 (by simp)).1
      have hb0nd := (hwf b0 (by simp)).2
      obtain ⟨a, ha⟩ := Option.isSome_iff_exists.mp hcdef.1
      obtain ⟨z1, hz1⟩ := Option.isSome_iff_exists.mp hb0def.2
      have halh : a ≤ lh := hcnd a lh ha hclh
      have hlz1 : lh + 1 ≤ z1 := hb0nd (lh + 1) z1 hbd hz1
      refine ih _ ?_ b' hb'
      intro x hx
      rcases List.mem_cons.mp hx with heq | hmem
      · subst heq
        refine ⟨⟨hcdef.1, by rw [hz1]; rfl⟩, ?_⟩
        intro a2 z2 ha2 hz2
        simp only at ha2 hz2
        rw [ha] at ha2
        rw [hz1] at hz2
        cases ha2; cases hz2
        omega
      · exact hwf x (by simp [hmem])
    · rw [if_neg hcond] at hb'
      rcases List.mem_cons.mp hb' with heq | hmem
      · subst heq
        exact hwf b' (by simp)
      · refine ih _ ?_ b' hmem
        intro x hx
        exact hwf x (by simp [List.mem_cons.mp hx])

theorem mem_cleanBlocks {b : Block} {l : List Block} :
    b ∈ cleanBlocks l ↔ b ∈ l ∧ Defined b := by
  unfold cleanBlocks Defined
  rw [List.mem_filter]
  simp

theorem consolidate_subcover {l : List Block} {b' : Block} (hb' : b' ∈ consolidate l)
    {u : ℤ} (hu : memB b' u) :
    ∃ b ∈ l, b.socio_id = b'.socio_id ∧ b.right_type = b'.right_type ∧ memB b u := by
  unfold consolidate at hb'
  rcases hs : List.insertionSort blockLeR (cleanBlocks l) with _ | ⟨c, rest⟩
  · rw [hs] at hb'
    cases hb'
  · rw [hs] at hb'
    obtain ⟨b, hbmem, hbs, hbt, hbu⟩ := mergeRun_subcover rest c b' hb' u hu
    have  : b ∈ cleanBlocks l := by
      have hperm := List.perm_insertionSort blockLeR (cleanBlocks l)
      rw [hs] at hperm
      exact hperm.mem_iff.mp hbmem
    exact ⟨b, (mem_cleanBlocks.mp this).1, hbs, hbt, hbu⟩

theorem consolidate_covers {l : List Block} (hnd : ∀ b ∈ l, NonDeg b)
    {b : Block} (hb : b ∈ l) {u : ℤ} (hu : memB b u) :
    ∃ b' ∈ consolidate l, b'.socio_id = b.socio_id ∧
      b'.right_type = b.right_type ∧ memB b' u := by
  have hdef : Defined b := memB_defined hu
  have hclean : b ∈ cleanBlocks l := mem_cleanBlocks.mpr ⟨hb, hdef⟩
  have hperm := List.perm_insertionSort blockLeR (cleanBlocks l)
  have hsorted : b ∈ List.insertionSort blockLeR (cleanBlocks l) :=
    hperm.mem_iff.mpr hclean
  unfold consolidate
  rcases hs : List.insertionSort blockLeR (cleanBlocks l) with _ | ⟨c, rest⟩
  · rw [hs] at hsorted
    cases hsorted
  · rw [hs] at hsorted
    refine mergeRun_covers rest c ?_ b hsorted u hu
    intro x hx
    have hxclean : x ∈ cleanBlocks l := by
      rw [hs] at hperm
      exact hperm.mem_iff.mp hx
    exact ⟨(mem_cleanBlocks.mp hxclean).2, hnd x (mem_cleanBlocks.mp hxclean).1⟩

theorem consolidate_wf {l : List Block} (hnd : ∀ b ∈ l, NonDeg b) :
    ∀ b' ∈ consolidate l, Defined b' ∧ NonDeg b' := by
  intro b' hb'
  unfold consolidate at hb'
  rcases hs : List.insertionSort blockLeR (cleanBlocks l) with _ | ⟨c, rest⟩
  · rw [hs] at hb'
    cases hb'
  · rw [hs] at hb'
    refine mergeRun_wf rest c ?_ b' hb'
    intro x hx
    have hxclean : x ∈ cleanBlocks l := by
      have hperm := List.perm_insertionSort blockLeR (cleanBlocks l)
      rw [hs] at hperm
      exact hperm.mem_iff.mp hx
    exact ⟨(mem_cleanBlocks.mp hxclean).2, hnd x (mem_cleanBlocks.mp hxclean).1⟩

theorem covered_consolidate {l : List Block} (hnd : ∀ b ∈ l, NonDeg b)
    (s : Option ℤ) (rt : RightType) (u : ℤ) :
    covered (consolidate l) s rt u ↔ covered l s rt u := by
  constructor
  · rintro ⟨b', hb', hs, ht, hu⟩
    obtain ⟨b, hbmem, hbs, hbt, hbu⟩ := consolidate_subcover hb' hu
    exact ⟨b, hbmem, by rw [hbs, hs], by rw [hbt, ht], hbu⟩
  · rintro ⟨b, hb, hs, ht, hu⟩
    obtain ⟨b', hb', hbs, hbt, hbu⟩ := consolidate_covers hnd hb hu
    exact ⟨b', hb', by rw [hbs, hs], by rw [hbt, ht], hbu⟩

/-- C9: split of a block around a cut keeps a non-intersecting block
unchanged, otherwise returns the left remainder exactly when the cut
starts after the block does and the right remainder exactly when the cut
ends before the block does, and the returned blocks cover exactly the
units of the block lying outside the cut. -/
theorem c9_split_block_spec (block : Block) (a z d h : ℤ)
    (hda : block.rango_desde = some a) (hhz : block.rango_hasta = some z)
    (haz : a ≤ z) :
    ((h < a ∨ d > z) → splitBlock block (some d) (some h) = [block]) ∧
    (¬ (h < a ∨ d > z) →
      splitBlock block (some d) (some h) =
        (if d > a then
          [{ block with rango_desde := some a, rango_hasta := some (d - 1) }]
         else [])
          ++ (if h < z then
          [{ block with rango_desde := some (h + 1), rango_hasta := some z }]
         else [])) ∧
    (∀ u : ℤ, (∃ b ∈ splitBlock block (some d) (some h), memB b u) ↔
      (a ≤ u ∧ u ≤ z ∧ ¬ (d ≤ u ∧ u ≤ h))) := by
  have hsplit : splitBlock block (some d) (some h) =
      if h < a ∨ d > z then [block]
      else
        (if d > a then
          [{ block with rango_desde := some a, rango_hasta := some (d - 1) }]
         else [])
          ++ (if h < z then
          [{ block with rango_desde := some (h + 1), rango_hasta := some z }]
         else []) := by
    unfold splitBlock
    rw [hda, hhz]
  refine ⟨?_, ?_, ?_⟩
  · intro hdisj
    rw [hsplit, if_pos hdisj]
  · intro hdisj
    rw [hsplit, if_neg hdisj]
  · intro u
    by_cases hdisj : h < a ∨ d > z
    · rw [hsplit, if_pos hdisj]
      simp only [List.mem_singleton, exists_eq_left, memB_iff, hda, hhz]
      constructor
      · rintro ⟨a2, z2, ha2, hz2, h1, h2⟩
        cases ha2; cases hz2
        exact ⟨h1, h2, by omega⟩
      · rintro ⟨h1, h2, _⟩
        exact ⟨a, z, rfl, rfl, h1, h2⟩
    · rw [hsplit, if_neg hdisj]
      push_neg at hdisj
      constructor
      · rintro ⟨b, hb, hmem⟩
        rw [List.mem_append] at hb
        rcases hb with hb | hb
        · by_cases hdgt : d > a
          · rw [if_pos hdgt, List.mem_singleton] at hb
            subst hb
            rw [memB_iff] at hmem
            obtain ⟨a2, z2, ha2, hz2, h1, h2⟩ := hmem
            simp only at ha2 hz2
            cases ha2; cases hz2
            exact ⟨h1, by omega, by omega⟩
          · rw [if_neg hdgt] at hb
            simp at hb
        · by_cases hhlt : h < z
          · rw [if_pos hhlt, List.mem_singleton] at hb
            subst hb
            rw [memB_iff] at hmem
            obtain ⟨a2, z2, ha2, hz2, h1, h2⟩ := hmem
            simp only at ha2 hz2
            cases ha2; cases hz2
            exact ⟨by omega, h2, by omega⟩
          · rw [if_neg hhlt] at hb
            simp at hb
      · rintro ⟨h1, h2, hout⟩
        rw [not_and_or] at hout
        push_neg at hout
        rcases hout with hlt | hgt
        · have hdgt : d > a := by omega
          refine ⟨{ block with rango_desde := some a, rango_hasta := some (d - 1) },
            ?_, ?_⟩
          · rw [List.mem_append, if_pos hdgt]
            exact Or.inl (List.mem_singleton.mpr rfl)
          · rw [memB_iff]
            exact ⟨a, d - 1, rfl, rfl, h1, by omega⟩
        · have hhlt : h < z := by omega
          refine ⟨{ block with rango_desde := some (h + 1), rango_hasta := some z },
            ?_, ?_⟩
          · rw [List.mem_append, if_pos hhlt]
            refine Or.inr (List.mem_singleton.mpr rfl)
          · rw [memB_iff]
            exact ⟨h + 1, z, rfl, rfl, by omega, h2⟩

theorem splitBlock_d_none (b : Block) (h : Option ℤ) : splitBlock b none h = [b] := rfl

theorem splitBlock_h_none (b : Block) (d : Option ℤ) : splitBlock b d none = [b] := by
  cases d <;> rfl

theorem vacate_of_none {d h : Option ℤ} (hmiss : d = none ∨ h = none)
    (sid : Option ℤ) (blocks : List Block) : vacate sid d h blocks = blocks := by
  unfold vacate
  have hsplit : ∀ b : Block, splitBlock b d h = [b] := by
    intro b
    rcases hmiss with hd | hh
    · rw [hd]; exact splitBlock_d_none b h
    · rw [hh]; exact splitBlock_h_none b d
  induction blocks with
  | nil => rfl
  | cons b rest ih =>
    rw [List.flatMap_cons, ih]
    by_cases hc : b.right_type = RightType.plena ∧ b.socio_id = sid
    · rw [if_pos hc, hsplit b]; rfl
    · rw [if_neg hc]; rfl

theorem consolidate_append_unclean {b : Block} (hb : ¬ Defined b)
    (blocks : List Block) : consolidate (blocks ++ [b]) = consolidate blocks := by
  unfold consolidate cleanBlocks
  rw [List.filter_append]
  have : List.filter (fun x : Block => x.rango_desde.isSome && x.rango_hasta.isSome) [b]
      = [] := by
    rw [List.filter_singleton]
    have : (b.rango_desde.isSome && b.rango_hasta.isSome) = false := by
      rw [Bool.and_eq_false_iff]
      by_cases hd : b.rango_desde.isSome
      · exact Or.inr (by
          by_cases hh : b.rango_hasta.isSome
          · exact absurd ⟨hd, hh⟩ hb
          · exact Bool.not_eq_true _ ▸ Bool.eq_false_iff.mpr hh)
      · exact Or.inl (Bool.eq_false_iff.mpr hd)
    rw [this]
    rfl
  rw [this, List.append_nil]

/-- Witness for C9 at a concrete block and cut. -/
theorem c9_split_block_spec_witness :
    ((Block.mk (some 1) RightType.plena (some 1) (some 10)).rango_desde = some 1 ∧
     (Block.mk (some 1) RightType.plena (some 1) (some 10)).rango_hasta = some 10 ∧
     (1 : ℤ) ≤ 10) ∧
    (((3 : ℤ) < 1 ∨ (4 : ℤ) > 10) →
      splitBlock (Block.mk (some 1) RightType.plena (some 1) (some 10))
        (some 4) (some 3) = [Block.mk (some 1) RightType.plena (some 1) (some 10)]) := by
  refine ⟨⟨rfl, rfl, by norm_num⟩, ?_⟩
  exact (c9_split_block_spec (Block.mk (some 1) RightType.plena (some 1) (some 10))
    1 10 4 3 rfl rfl (by norm_num)).1

/-- C10: a transfer or succession event with an absent range bound leaves
the covered holder, right-kind, unit memberships unchanged: the vacate
step returns every block unchanged, and the acquirer block appended with
undefined bounds is dropped by consolidation. -/
theorem c10_transfer_missing_bound (ev : Event) (blocks : List Block)
    (htipo : isTrans ev = true)
    (hmiss : ev.rango_desde = none ∨ ev.rango_hasta = none)
    (hnd : ∀ b ∈ blocks, NonDeg b) :
    vacate ev.socio_transmite ev.rango_desde ev.rango_hasta blocks = blocks ∧
    ∀ s rt u, covered (applyTrans ev blocks) s rt u ↔ covered blocks s rt u := by
  have hv : vacate ev.socio_transmite ev.rango_desde ev.rango_hasta blocks = blocks :=
    vacate_of_none hmiss _ _
  refine ⟨hv, ?_⟩
  intro s rt u
  have hundef : ¬ Defined
      (Block.mk ev.socio_adquiere RightType.plena ev.rango_desde ev.rango_hasta) := by
    intro hc
    rcases hmiss with hd | hh
    · rw [Defined, hd] at hc
      simp at hc
    · rw [Defined, hh] at hc
      simp at hc
  have happ : applyTrans ev blocks = consolidate (consolidate blocks) := by
    unfold applyTrans
    rw [hv, consolidate_append_unclean hundef]
  rw [happ]
  have hnd2 : ∀ b ∈ consolidate blocks, NonDeg b := fun b hb =>
    (consolidate_wf hnd b hb).2
  rw [covered_consolidate hnd2, covered_consolidate hnd]

/-- Witness for C10 at a concrete transfer event and block list. -/
theorem c10_transfer_missing_bound_witness :
    (isTrans (Event.mk 3 "TRANSMISION" (some 1) (some 2) none (some 9) none) = true ∧
     ((Event.mk 3 "TRANSMISION" (some 1) (some 2) none (some 9) none).rango_desde = none ∨
      (Event.mk 3 "TRANSMISION" (some 1) (some 2) none (some 9) none).rango_hasta = none) ∧
     (∀ b ∈ [Block.mk (some 1) RightType.plena (some 1) (some 10)], NonDeg b)) ∧
    (vacate (some 1) none (some 9)
        [Block.mk (some 1) RightType.plena (some 1) (some 10)] =
      [Block.mk (some 1) RightType.plena (some 1) (some 10)] ∧
     ∀ s rt u,
       covered (applyTrans (Event.mk 3 "TRANSMISION" (some 1) (some 2) none (some 9) none)
         [Block.mk (some 1) RightType.plena (some 1) (some 10)]) s rt u ↔
       covered [Block.mk (some 1) RightType.plena (some 1) (some 10)] s rt u) := by
  refine ⟨⟨by decide, Or.inl rfl, by decide⟩, ?_⟩
  exact c10_transfer_missing_bound
    (Event.mk 3 "TRANSMISION" (some 1) (some 2) none (some 9) none)
    [Block.mk (some 1) RightType.plena (some 1) (some 10)]
    (by decide) (Or.inl rfl) (by decide)

theorem listSumCast (l : List (Option ℤ)) (g : Option ℤ → ℤ) :
    (((l.map g).sum : ℤ) : ℚ) = (l.map (fun s => ((g s : ℤ) : ℚ))).sum := by
  induction l with
  | nil => simp
  | cons x r ih =>
    rw [List.map_cons, List.sum_cons, List.map_cons, List.sum_cons, Int.cast_add, ih]

theorem listSumAdd (l : List (Option ℤ)) (g h : Option ℤ → ℤ) :
    (l.map (fun s => g s + h s)).sum = (l.map g).sum + (l.map h).sum := by
  induction l with
  | nil => simp
  | cons x r ih =>
    simp only [List.map_cons, List.sum_cons, ih]
    ring

theorem listSumSubQ (l : List (Option ℤ)) (g h : Option ℤ → ℚ) :
    (l.map (fun s => g s - h s)).sum = (l.map g).sum - (l.map h).sum := by
  induction l with
  | nil => simp
  | cons x r ih =>
    simp only [List.map_cons, List.sum_cons, ih]
    ring

theorem sum_exactQ (socios : List (Option ℤ)) (cur : Option ℤ → ℤ) (newT oldT : ℤ) :
    (socios.map (exactQ cur newT oldT)).sum
      = (((socios.map cur).sum * newT : ℤ) : ℚ) / (oldT : ℚ) := by
  induction socios with
  | nil => simp
  | cons x r ih =>
    rw [List.map_cons, List.sum_cons, ih, List.map_cons, List.sum_cons]
    unfold exactQ
    push_cast
    ring

theorem fracQ_eq_fract (cur : Option ℤ → ℤ) (newT oldT : ℤ) (s : Option ℤ) :
    fracQ cur newT oldT s = Int.fract (exactQ cur newT oldT s) := by
  unfold fracQ baseI
  rw [← Int.self_sub_floor]

theorem fracQ_nonneg (cur : Option ℤ → ℤ) (newT oldT : ℤ) (s : Option ℤ) :
    0 ≤ fracQ cur newT oldT s := by
  rw [fracQ_eq_fract]
  exact Int.fract_nonneg _

theorem fracQ_lt_one (cur : Option ℤ → ℤ) (newT oldT : ℤ) (s : Option ℤ) :
    fracQ cur newT oldT s < 1 := by
  rw [fracQ_eq_fract]
  exact Int.fract_lt_one _

theorem indicator_filter_length (S : List (Option ℤ)) :
    ∀ l : List (Option ℤ),
      (l.map (fun x => if x ∈ S then (1:ℤ) else 0)).sum
        = ((l.filter (fun x => decide (x ∈ S))).length : ℤ) := by
  intro l
  induction l with
  | nil => simp
  | cons x r ih =>
    by_cases hx : x ∈ S
    · rw [List.map_cons, List.sum_cons, if_pos hx, ih, List.filter_cons,
        if_pos (by simpa using hx), List.length_cons]
      push_cast
      ring
    · rw [List.map_cons, List.sum_cons, if_neg hx, ih, List.filter_cons,
        if_neg (by simpa using hx)]
      ring

theorem indicator_sum_length (l S : List (Option ℤ)) (hl : l.Nodup) (hS : S.Nodup)
    (hsub : ∀ x ∈ S, x ∈ l) :
    (l.map (fun x => if x ∈ S then (1:ℤ) else 0)).sum = (S.length : ℤ) := by
  rw [indicator_filter_length S l]
  have hlen : (l.filter (fun x => decide (x ∈ S))).length = S.length := by
    apply le_antisymm
    · refine List.Subperm.length_le ?_
      refine (hl.filter _).subperm ?_
      intro x hx
      simpa using (List.mem_filter.mp hx).2
    · refine List.Subperm.length_le ?_
      refine hS.subperm ?_
      intro x hx
      exact List.mem_filter.mpr ⟨hsub x hx, by simpa using hx⟩
  rw [hlen]

theorem sum_fracQ_le_length (cur : Option ℤ → ℤ) (newT oldT : ℤ) :
    ∀ l : List (Option ℤ), (l.map (fracQ cur newT oldT)).sum ≤ (l.length : ℚ) := by
  intro l
  have h := List.sum_le_card_nsmul (l.map (fracQ cur newT oldT)) 1 ?_
  · rw [List.length_map, nsmul_eq_mul, mul_one] at h
    exact h
  · intro x hx
    rw [List.mem_map] at hx
    obtain ⟨s, _, rfl⟩ := hx
    exact le_of_lt (fracQ_lt_one cur newT oldT s)

/-- C1: with a positive old total, the largest-remainder reallocation used
by the redenomination step distributes exactly the new total, and every
holder's integer allocation differs from the exact rational share by
strictly less than one unit. -/
theorem c1_largest_remainder (socios : List (Option ℤ)) (cur : Option ℤ → ℤ)
    (newT oldT : ℤ) (hnd : socios.Nodup)
    (hsum : (socios.map cur).sum = oldT) (hpos : 0 < oldT) :
    (socios.map (allocOf socios cur newT oldT)).sum = newT ∧
    ∀ s ∈ socios,
      |((allocOf socios cur newT oldT s : ℤ) : ℚ) - exactQ cur newT oldT s| < 1 := by
  have hO : (oldT : ℚ) ≠ 0 := by
    have : (0 : ℚ) < (oldT : ℚ) := by exact_mod_cast hpos
    exact ne_of_gt this
  have hesum : (socios.map (exactQ cur newT oldT)).sum = (newT : ℚ) := by
    rw [sum_exactQ, hsum]
    push_cast
    field_simp
  have hfsum : (socios.map (fracQ cur newT oldT)).sum
      = (newT : ℚ) - ((asignadas socios cur newT oldT : ℤ) : ℚ) := by
    have hstep : (socios.map (fracQ cur newT oldT)).sum
        = (socios.map (exactQ cur newT oldT)).sum
          - (socios.map (fun s => ((baseI cur newT oldT s : ℤ) : ℚ))).sum :=
      listSumSubQ socios _ _
    rw [hstep, hesum]
    unfold asignadas
    rw [listSumCast]
  have hrq : ((restoI socios cur newT oldT : ℤ) : ℚ)
      = (socios.map (fracQ cur newT oldT)).sum := by
    unfold restoI
    rw [hfsum]
    push_cast
    ring
  have hr0 : 0 ≤ restoI socios cur newT oldT := by
    have h2 : 0 ≤ (socios.map (fracQ cur newT oldT)).sum := by
      apply List.sum_nonneg
      intro x hx
      rw [List.mem_map] at hx
      obtain ⟨s, _, rfl⟩ := hx
      exact fracQ_nonneg cur newT oldT s
    have : (0 : ℚ) ≤ ((restoI socios cur newT oldT : ℤ) : ℚ) := by
      rw [hrq]; exact h2
    exact_mod_cast this
  have hne : socios ≠ [] := by
    rintro rfl
    rw [List.map_nil, List.sum_nil] at hsum
    omega
  have hrlt : restoI socios cur newT oldT < (socios.length : ℤ) := by
    have hlt : (socios.map (fracQ cur newT oldT)).sum < (socios.length : ℚ) := by
      rcases socios with _ | ⟨x, r⟩
      · exact absurd rfl hne
      · rw [List.map_cons, List.sum_cons, List.length_cons]
        have h1 : fracQ cur newT oldT x < 1 := fracQ_lt_one cur newT oldT x
        have h2 := sum_fracQ_le_length cur newT oldT r
        push_cast
        linarith
    have : ((restoI socios cur newT oldT : ℤ) : ℚ) < ((socios.length : ℤ) : ℚ) := by
      rw [hrq]
      push_cast
      exact_mod_cast hlt
    exact_mod_cast this
  have hkle : (restoI socios cur newT oldT).toNat ≤ socios.length := by omega
  have hperm : (fracsSorted socios cur newT oldT).Perm socios :=
    List.perm_insertionSort _ _
  have hLnd : (fracsSorted socios cur newT oldT).Nodup := hperm.nodup_iff.mpr hnd
  have hbnd : (bumped socios cur newT oldT).Nodup :=
    (List.take_sublist _ _).nodup hLnd
  have hbsub : ∀ x ∈ bumped socios cur newT oldT, x ∈ socios := by
    intro x hx
    exact hperm.mem_iff.mp (List.mem_of_mem_take hx)
  have hblen : (bumped socios cur newT oldT).length
      = (restoI socios cur newT oldT).toNat := by
    unfold bumped
    rw [List.length_take]
    exact min_eq_left (hperm.length_eq ▸ hkle)
  have hsum1 : (socios.map (allocOf socios cur newT oldT)).sum
      = asignadas socios cur newT oldT + ((bumped socios cur newT oldT).length : ℤ) := by
    have halloc : socios.map (allocOf socios cur newT oldT)
        = socios.map (fun s => baseI cur newT oldT s
            + (if s ∈ bumped socios cur newT oldT then (1:ℤ) else 0)) := rfl
    rw [halloc, listSumAdd, indicator_sum_length socios _ hnd hbnd hbsub]
    rfl
  have htotal : (socios.map (allocOf socios cur newT oldT)).sum = newT := by
    rw [hsum1, hblen]
    unfold restoI at hr0 ⊢
    omega
  refine ⟨htotal, ?_⟩
  intro s _
  by_cases hsb : s ∈ bumped socios cur newT oldT
  · have hfpos : 0 < fracQ cur newT oldT s := by
      rcases lt_or_eq_of_le (fracQ_nonneg cur newT oldT s) with h | h
      · exact h
      · exfalso
        have hf0 : fracQ cur newT oldT s = 0 := h.symm
        have hsb2 := hsb
        unfold bumped at hsb2
        rw [List.mem_take_iff_getElem] at hsb2
        obtain ⟨i, hi, hget⟩ := hsb2
        have hilen : i < (fracsSorted socios cur newT oldT).length :=
          lt_of_lt_of_le hi (min_le_right _ _)
        have hik : i < (restoI socios cur newT oldT).toNat :=
          lt_of_lt_of_le hi (min_le_left _ _)
        obtain ⟨A, B, hAB, hAlen⟩ :
            ∃ A B, fracsSorted socios cur newT oldT = A ++ s :: B ∧ A.length = i := by
          refine ⟨(fracsSorted socios cur newT oldT).take i,
            (fracsSorted socios cur newT oldT).drop (i + 1), ?_, ?_⟩
          · conv_lhs => rw [← List.take_append_drop i (fracsSorted socios cur newT oldT)]
            rw [List.drop_eq_getElem_cons hilen, hget]
          · rw [List.length_take]
            exact min_eq_left (le_of_lt hilen)
        have hsorted : (fracsSorted socios cur newT oldT).Sorted
            (fracGeR cur newT oldT) := List.sorted_insertionSort _ _
        rw [hAB] at hsorted
        have hBz : ∀ x ∈ B, fracQ cur newT oldT x = 0 := by
          intro x hx
          have hrel : fracGeR cur newT oldT s x := by
            have h2 := (List.pairwise_append.mp hsorted).2.1
            exact (List.pairwise_cons.mp h2).1 x hx
          have hle : fracQ cur newT oldT x ≤ fracQ cur newT oldT s := by
            rcases hrel with h2 | ⟨h2, _⟩
            · exact le_of_lt h2
            · exact le_of_eq h2.symm
          have := fracQ_nonneg cur newT oldT x
          rw [hf0] at hle
          linarith
        have hsumL : ((A ++ s :: B).map (fracQ cur newT oldT)).sum
            = (socios.map (fracQ cur newT oldT)).sum := by
          have hperm2 : (A ++ s :: B).Perm socios := hAB ▸ hperm
          exact (hperm2.map _).sum_eq
        rw [List.map_append, List.sum_append, List.map_cons, List.sum_cons, hf0] at hsumL
        have hBsum : (B.map (fracQ cur newT oldT)).sum = 0 := by
          apply List.sum_eq_zero
          intro x hx
          rw [List.mem_map] at hx
          obtain ⟨y, hy, rfl⟩ := hx
          exact hBz y hy
        rw [hBsum] at hsumL
        have hAle : (A.map (fracQ cur newT oldT)).sum ≤ (A.length : ℚ) :=
          sum_fracQ_le_length cur newT oldT A
        have hiq : ((restoI socios cur newT oldT : ℤ) : ℚ) ≤ (i : ℚ) := by
          rw [hrq, ← hsumL, hAlen.symm]
          simpa using hAle
        have hik2 : ((i : ℤ) : ℚ) < ((restoI socios cur newT oldT : ℤ) : ℚ) := by
          have : (i : ℤ) < restoI socios cur newT oldT := by omega
          exact_mod_cast this
        have : ((i : ℤ) : ℚ) = (i : ℚ) := by push_cast; rfl
        linarith
    have halloc : allocOf socios cur newT oldT s = baseI cur newT oldT s + 1 := by
      unfold allocOf
      rw [if_pos hsb]
    rw [halloc]
    have hfr : ((baseI cur newT oldT s + 1 : ℤ) : ℚ) - exactQ cur newT oldT s
        = 1 - fracQ cur newT oldT s := by
      unfold fracQ
      push_cast
      ring
    rw [hfr, abs_of_pos (by linarith [fracQ_lt_one cur newT oldT s])]
    linarith
  · have halloc : allocOf socios cur newT oldT s = baseI cur newT oldT s := by
      unfold allocOf
      rw [if_neg hsb]
      ring
    rw [halloc]
    have hfr : ((baseI cur newT oldT s : ℤ) : ℚ) - exactQ cur newT oldT s
        = -(fracQ cur newT oldT s) := by
      unfold fracQ
      push_cast
      ring
    rw [hfr, abs_neg, abs_of_nonneg (fracQ_nonneg cur newT oldT s)]
    exact fracQ_lt_one cur newT oldT s

/-- Witness for C1 at a concrete holder list: two holders with 60 and 40
units, reallocated to a new total of 50. -/
theorem c1_largest_remainder_witness :
    (([some 1, some 2] : List (Option ℤ)).Nodup ∧
     (([some 1, some 2] : List (Option ℤ)).map
        (fun s : Option ℤ => if s = some 1 then (60:ℤ) else 40)).sum = 100 ∧
     (0:ℤ) < 100) ∧
    ((([some 1, some 2] : List (Option ℤ)).map
        (allocOf [some 1, some 2]
          (fun s : Option ℤ => if s = some 1 then (60:ℤ) else 40) 50 100)).sum = 50 ∧
     ∀ s ∈ ([some 1, some 2] : List (Option ℤ)),
       |((allocOf [some 1, some 2]
            (fun s : Option ℤ => if s = some 1 then (60:ℤ) else 40) 50 100 s : ℤ) : ℚ)
          - exactQ (fun s : Option ℤ => if s = some 1 then (60:ℤ) else 40) 50 100 s| < 1) := by
  refine ⟨⟨by decide, by decide, by decide⟩, ?_⟩
  exact c1_largest_remainder [some 1, some 2]
    (fun s : Option ℤ => if s = some 1 then (60:ℤ) else 40) 50 100
    (by decide) (by decide) (by decide)

theorem applyDay_total (day : List Event) (st r : EngineState)
    (h : applyDay day st = Except.ok r) : r.total_part = plenaSum r.blocks := by
  simp only [applyDay, applyDayCore] at h
  split at h
  · exact absurd h (by simp)
  · injection h with h2
    rw [← h2]

theorem foldDays_total (evs : List Event) :
    ∀ (keys : List ℕ) (st st2 : EngineState), keys ≠ [] →
      foldDays evs keys st = Except.ok st2 → st2.total_part = plenaSum st2.blocks := by
  intro keys
  induction keys with
  | nil => intro st st2 hne _; exact absurd rfl hne
  | cons f rest ih =>
    intro st st2 _ h
    rw [foldDays] at h
    cases hap : applyDay (evs.filter (fun e => e.fecha == f)) st with
    | error e =>
      simp only [hap] at h
      exact absurd h (by simp)
    | ok stMid =>
      simp only [hap] at h
      rcases rest with _ | ⟨f2, rest2⟩
      · rw [foldDays] at h
        injection h with h2
        rw [← h2]
        exact applyDay_total _ _ _ hap
      · exact ih _ _ (by simp) h

theorem dayKeys_ne_nil {events : List Event} (hne : events ≠ []) :
    dayKeys events ≠ [] := by
  unfold dayKeys
  intro hc
  have hperm := List.perm_insertionSort dateLeR ((events.map Event.fecha).dedup)
  rw [hc] at hperm
  have : (events.map Event.fecha).dedup = [] := hperm.symm.eq_nil
  rw [List.dedup_eq_nil, List.map_eq_nil] at this
  exact hne this

/-- C7: the outstanding unit count returned at the close of every
processed day is the sum of the full-ownership block lengths recomputed
from the block set; consequently the replay's returned count equals that
sum whenever at least one event was processed. -/
theorem c7_total_recompute_amended :
    (∀ (day : List Event) (st r : EngineState), applyDay day st = Except.ok r →
      r.total_part = plenaSum r.blocks) ∧
    (∀ (events : List Event) (vn0 : ℚ) (t0 : ℤ) (bl : List Block) (vn : ℚ) (tp : ℤ)
        (lf : Option ℕ), events ≠ [] →
      applyEvents events vn0 t0 = Except.ok (bl, vn, tp, lf) → tp = plenaSum bl) := by
  refine ⟨applyDay_total, ?_⟩
  intro events vn0 t0 bl vn tp lf hne h
  simp only [applyEvents] at h
  split at h
  · exact absurd h (by simp)
  · rename_i st heq
    injection h with h2
    have hkeys : dayKeys (events.map normalizeEvent) ≠ [] :=
      dayKeys_ne_nil (by
        intro hc
        rw [List.map_eq_nil] at hc
        exact hne hc)
    have htot := foldDays_total (events.map normalizeEvent) _ _ _ hkeys heq
    rw [Prod.mk.injEq, Prod.mk.injEq, Prod.mk.injEq] at h2
    obtain ⟨hbl, _, htp, _⟩ := h2
    rw [← hbl, ← htp]
    exact htot

/-- C7 counterexample: with no events, the replay returns the initial
watermark of 7 while the full-ownership blocks sum to 0, so the returned
result does not carry the recomputed sum. -/
theorem c7_total_recompute_counterexample :
    applyEvents [] 5 7 = Except.ok ([], 5, 7, none) ∧
    plenaSum [] = 0 ∧ (7 : ℤ) ≠ 0 :=
  ⟨by decide, by decide, by decide⟩

/-- Witness for C7 at a concrete one-event replay. -/
theorem c7_total_recompute_amended_witness :
    (([Event.mk 1 "ALTA" none (some 1) (some 1) (some 10) none] : List Event) ≠ [] ∧
     applyEvents [Event.mk 1 "ALTA" none (some 1) (some 1) (some 10) none] 5 0 =
       Except.ok ([Block.mk (some 1) RightType.plena (some 1) (some 10)], 5, 10, some 1)) ∧
    (10 : ℤ) = plenaSum [Block.mk (some 1) RightType.plena (some 1) (some 10)] := by
  refine ⟨⟨by decide, by decide⟩, ?_⟩
  exact c7_total_recompute_amended.2
    [Event.mk 1 "ALTA" none (some 1) (some 1) (some 10) none] 5 0
    [Block.mk (some 1) RightType.plena (some 1) (some 10)] 5 10 (some 1)
    (by decide) (by decide)

theorem round6_five : round6 (5 : ℚ) = 5 := by
  unfold round6 roundHalfEven
  have h5 : ((5 : ℚ) * 1000000) = 5000000 := by norm_num
  rw [h5]
  have hf : ⌊(5000000 : ℚ)⌋ = 5000000 := by
    rw [Int.floor_eq_iff]
    constructor <;> norm_num
  rw [hf]
  rw [if_pos (by push_cast; norm_num)]
  push_cast
  norm_num

theorem round6_five_plus : round6 (5 + 1/10000000 : ℚ) = 5 := by
  unfold round6 roundHalfEven
  have h5 : ((5 + 1/10000000 : ℚ) * 1000000) = 50000001/10 := by norm_num
  rw [h5]
  have hf : ⌊(50000001/10 : ℚ)⌋ = 5000000 := by
    rw [Int.floor_eq_iff]
    constructor <;> norm_num
  rw [hf]
  rw [if_pos (by push_cast; norm_num)]
  push_cast
  norm_num

/-- C2 counterexample: two same-day redenomination events declare nominal
values 5 and 5 + 1/10000000, which do not agree exactly, yet the step
succeeds because the agreement check only compares the values rounded to
6 decimal places; the last declared value is adopted. -/
theorem c2_redenomination_vn_counterexample :
    redenStep
      [Event.mk 1 "REDENOMINACION" none none none none (some 5),
       Event.mk 1 "REDENOMINACION" none none none none (some (5 + 1/10000000))]
      [] 5 0 = Except.ok ([], 5 + 1/10000000, 0) ∧
    (5 : ℚ) ≠ 5 + 1/10000000 := by
  constructor
  · have hvn : redenNewVN
        [Event.mk 1 "REDENOMINACION" none none none none (some 5),
         Event.mk 1 "REDENOMINACION" none none none none (some (5 + 1/10000000))]
        = Except.ok (some (5 + 1/10000000)) := by
      unfold redenNewVN
      have hcands : (([Event.mk 1 "REDENOMINACION" none none none none (some 5),
          Event.mk 1 "REDENOMINACION" none none none none
            (some (5 + 1/10000000))] : List Event).filter
          (fun e => isReden e)).filterMap Event.nuevo_valor_nominal
          = [(5 : ℚ), 5 + 1/10000000] := rfl
      rw [hcands]
      simp only [List.map_cons, List.map_nil, round6_five, round6_five_plus,
        List.all_cons, List.all_nil, beq_self_eq_true, Bool.and_self, if_true]
      rw [if_neg (by norm_num)]
      rfl
    unfold redenStep
    rw [if_pos (by decide)]
    rw [hvn]
    have hq : ((5 : ℚ) * ((0 : ℤ) : ℚ) / (5 + 1/10000000)).den = 1 := by
      norm_num
    simp only [plenaSocios, currentOf, List.filter_nil, List.map_nil, List.dedup_nil,
      List.insertionSort, List.sum_nil]
    rw [if_pos hq]
    rfl
  · norm_num

/-- C2 amended: with same-day redenomination events declaring nominal
values, the step fails exactly when the declared values disagree after
rounding to 6 decimal places, or the last declared value v is not
positive, or the current capital is not an exact multiple of v; otherwise
the nominal value becomes v and the new total is the exact integer
quotient capital / v, so that new total times v reproduces the old
capital exactly. -/
theorem c2_redenomination_vn_amended (day : List Event) (blocks : List Block)
    (vn : ℚ) (total : ℤ) (c : ℚ) (cs : List ℚ)
    (hday : day.any (fun e => isReden e) = true)
    (hcands : (day.filter (fun e => isReden e)).filterMap Event.nuevo_valor_nominal
      = c :: cs) :
    ((((c :: cs).map round6).all (fun v2 => v2 == round6 c)) = false →
      ∃ msg, redenStep day blocks vn total = Except.error msg) ∧
    ((((c :: cs).map round6).all (fun v2 => v2 == round6 c)) = true →
      (cs.getLastD c ≤ 0 → ∃ msg, redenStep day blocks vn total = Except.error msg) ∧
      (0 < cs.getLastD c →
        ((vn * (((((plenaSocios blocks).map (currentOf blocks)).sum : ℤ) : ℚ))
            / cs.getLastD c).den ≠ 1 →
          ∃ msg, redenStep day blocks vn total = Except.error msg) ∧
        ((vn * (((((plenaSocios blocks).map (currentOf blocks)).sum : ℤ) : ℚ))
            / cs.getLastD c).den = 1 →
          (∃ bl2, redenStep day blocks vn total = Except.ok (bl2, cs.getLastD c,
            (vn * (((((plenaSocios blocks).map (currentOf blocks)).sum : ℤ) : ℚ))
              / cs.getLastD c).num)) ∧
          ((vn * (((((plenaSocios blocks).map (currentOf blocks)).sum : ℤ) : ℚ))
              / cs.getLastD c).num : ℚ) * cs.getLastD c
            = vn * (((((plenaSocios blocks).map (currentOf blocks)).sum : ℤ) : ℚ))))) := by
  have hnew : redenNewVN day =
      (if ((c :: cs).map round6).all (fun v2 => v2 == round6 c) = true then
        (if cs.getLastD c ≤ 0 then
          Except.error ("nuevo valor nominal invalido en REDENOMINACION")
         else Except.ok (some (cs.getLastD c)))
       else Except.error ("valores nominales distintos en REDENOMINACION")) := by
    unfold redenNewVN
    rw [hcands]
  constructor
  · intro hall
    refine ⟨"valores nominales distintos en REDENOMINACION", ?_⟩
    have herr : redenNewVN day =
        Except.error ("valores nominales distintos en REDENOMINACION") := by
      rw [hnew, if_neg (by rw [hall]; exact Bool.false_ne_true)]
    unfold redenStep
    rw [if_pos hday]
    simp only [herr]
  · intro hall
    refine ⟨?_, ?_⟩
    · intro hv0
      refine ⟨"nuevo valor nominal invalido en REDENOMINACION", ?_⟩
      have herr : redenNewVN day =
          Except.error ("nuevo valor nominal invalido en REDENOMINACION") := by
        rw [hnew, if_pos hall, if_pos hv0]
      unfold redenStep
      rw [if_pos hday]
      simp only [herr]
    · intro hvpos
      have hok : redenNewVN day = Except.ok (some (cs.getLastD c)) := by
        rw [hnew, if_pos hall, if_neg (not_le.mpr hvpos)]
      refine ⟨?_, ?_⟩
      · intro hden
        refine ⟨"el capital no es multiplo del nuevo VN en REDENOMINACION", ?_⟩
        unfold redenStep
        rw [if_pos hday]
        simp only [hok]
        rw [if_neg hden]
      · intro hden
        constructor
        · by_cases h0 : ((plenaSocios blocks).map (currentOf blocks)).sum = 0
          · refine ⟨consolidate blocks, ?_⟩
            have hq0 : (vn * (((((plenaSocios blocks).map (currentOf blocks)).sum : ℤ) : ℚ))
                / cs.getLastD c).num = 0 := by
              rw [h0]
              norm_num
            simp only [redenStep, hday, hok, if_pos hden, hq0, h0, if_true]
            simp
          · refine ⟨consolidate (buildBlocks (allocOf (plenaSocios blocks)
                (currentOf blocks)
                ((vn * (((((plenaSocios blocks).map (currentOf blocks)).sum : ℤ) : ℚ))
                  / cs.getLastD c).num)
                (((plenaSocios blocks).map (currentOf blocks)).sum))
                (plenaSocios blocks) 1), ?_⟩
            simp only [redenStep, hday, hok, if_pos hden, if_neg h0]
            simp
        · have hnum : ((vn * (((((plenaSocios blocks).map (currentOf blocks)).sum : ℤ) : ℚ))
              / cs.getLastD c).num : ℚ)
              = vn * (((((plenaSocios blocks).map (currentOf blocks)).sum : ℤ) : ℚ))
                / cs.getLastD c :=
            (Rat.den_eq_one_iff _).mp hden
          rw [hnum]
          exact div_mul_cancel₀ _ (ne_of_gt hvpos)

/-- Witness for C2 at a concrete day declaring nominal value 10 over one
holder with 100 units at nominal value 5. -/
theorem c2_redenomination_vn_amended_witness :
    (([Event.mk 1 "REDENOMINACION" none none none none (some 10)] : List Event).any
        (fun e => isReden e) = true ∧
     (([Event.mk 1 "REDENOMINACION" none none none none (some 10)] : List Event).filter
        (fun e => isReden e)).filterMap Event.nuevo_valor_nominal = [(10 : ℚ)]) ∧
    (((([(10 : ℚ)]).map round6).all (fun v2 => v2 == round6 10)) = false →
      ∃ msg, redenStep [Event.mk 1 "REDENOMINACION" none none none none (some 10)]
        [Block.mk (some 1) RightType.plena (some 1) (some 100)] 5 100
        = Except.error msg) ∧
    (((([(10 : ℚ)]).map round6).all (fun v2 => v2 == round6 10)) = true →
      (([] : List ℚ).getLastD 10 ≤ 0 →
        ∃ msg, redenStep [Event.mk 1 "REDENOMINACION" none none none none (some 10)]
          [Block.mk (some 1) RightType.plena (some 1) (some 100)] 5 100
          = Except.error msg) ∧
      (0 < ([] : List ℚ).getLastD 10 →
        (((5 : ℚ) * (((((plenaSocios
                [Block.mk (some 1) RightType.plena (some 1) (some 100)]).map
              (currentOf [Block.mk (some 1) RightType.plena (some 1) (some 100)])).sum
              : ℤ) : ℚ))
            / ([] : List ℚ).getLastD 10).den ≠ 1 →
          ∃ msg, redenStep [Event.mk 1 "REDENOMINACION" none none none none (some 10)]
            [Block.mk (some 1) RightType.plena (some 1) (some 100)] 5 100
            = Except.error msg) ∧
        (((5 : ℚ) * (((((plenaSocios
                [Block.mk (some 1) RightType.plena (some 1) (some 100)]).map
              (currentOf [Block.mk (some 1) RightType.plena (some 1) (some 100)])).sum
              : ℤ) : ℚ))
            / ([] : List ℚ).getLastD 10).den = 1 →
          (∃ bl2, redenStep [Event.mk 1 "REDENOMINACION" none none none none (some 10)]
            [Block.mk (some 1) RightType.plena (some 1) (some 100)] 5 100
            = Except.ok (bl2, ([] : List ℚ).getLastD 10,
              ((5 : ℚ) * (((((plenaSocios
                    [Block.mk (some 1) RightType.plena (some 1) (some 100)]).map
                  (currentOf [Block.mk (some 1) RightType.plena (some 1) (some 100)])).sum
                  : ℤ) : ℚ))
                / ([] : List ℚ).getLastD 10).num)) ∧
          (((5 : ℚ) * (((((plenaSocios
                  [Block.mk (some 1) RightType.plena (some 1) (some 100)]).map
                (currentOf [Block.mk (some 1) RightType.plena (some 1) (some 100)])).sum
                : ℤ) : ℚ))
              / ([] : List ℚ).getLastD 10).num : ℚ) * ([] : List ℚ).getLastD 10
            = (5 : ℚ) * (((((plenaSocios
                  [Block.mk (some 1) RightType.plena (some 1) (some 100)]).map
                (currentOf [Block.mk (some 1) RightType.plena (some 1) (some 100)])).sum
                : ℤ) : ℚ))))) := by
  refine ⟨⟨by decide, rfl⟩, ?_⟩
  exact c2_redenomination_vn_amended
    [Event.mk 1 "REDENOMINACION" none none none none (some 10)]
    [Block.mk (some 1) RightType.plena (some 1) (some 100)] 5 100 10 []
    (by decide) rfl

theorem lenBlock_pos {b : Block} (hd : Defined b) (hn : NonDeg b) : 1 ≤ lenBlock b := by
  obtain ⟨a, ha⟩ := Option.isSome_iff_exists.mp hd.1
  obtain ⟨z, hz⟩ := Option.isSome_iff_exists.mp hd.2
  have := hn a z ha hz
  unfold lenBlock
  rw [ha, hz]
  simp only [Option.getD_some]
  omega

theorem mem_plenaSocios {blocks : List Block} {s : Option ℤ} :
    s ∈ plenaSocios blocks ↔
      ∃ b ∈ blocks, b.right_type = RightType.plena ∧ b.socio_id = s := by
  unfold plenaSocios
  rw [(List.perm_insertionSort socioLeR _).mem_iff, List.mem_dedup, List.mem_map]
  constructor
  · rintro ⟨b, hb, rfl⟩
    rw [List.mem_filter] at hb
    exact ⟨b, hb.1, by simpa using hb.2, rfl⟩
  · rintro ⟨b, hb, ht, rfl⟩
    exact ⟨b, List.mem_filter.mpr ⟨hb, by simpa using ht⟩, rfl⟩

theorem plenaSocios_nodup (blocks : List Block) : (plenaSocios blocks).Nodup :=
  (List.perm_insertionSort socioLeR _).nodup_iff.mpr (List.nodup_dedup _)

theorem plenaSocios_sorted (blocks : List Block) :
    (plenaSocios blocks).Sorted socioLeR :=
  List.sorted_insertionSort socioLeR _

theorem currentOf_filter (blocks : List Block) (s : Option ℤ) :
    currentOf blocks s =
      (((blocks.filter (fun b => decide (b.right_type = RightType.plena))).filter
        (fun b => decide (b.socio_id = s))).map lenBlock).sum := by
  unfold currentOf
  rw [List.filter_filter]
  have hfe : blocks.filter
      (fun b => decide (b.right_type = RightType.plena ∧ b.socio_id = s))
      = blocks.filter
        (fun a => decide (a.socio_id = s) && decide (a.right_type = RightType.plena)) := by
    apply List.filter_congr
    intro b _
    rw [Bool.decide_and, Bool.and_comm]
  rw [hfe]

theorem currentOf_pos {blocks : List Block}
    (hwf : ∀ b ∈ blocks, Defined b ∧ NonDeg b) {s : Option ℤ}
    (hs : s ∈ plenaSocios blocks) : 1 ≤ currentOf blocks s := by
  obtain ⟨b, hb, ht, hsid⟩ := mem_plenaSocios.mp hs
  unfold currentOf
  have hbmem : b ∈ blocks.filter
      (fun b => decide (b.right_type = RightType.plena ∧ b.socio_id = s)) :=
    List.mem_filter.mpr ⟨hb, by simp [ht, hsid]⟩
  have hlen : 1 ≤ lenBlock b := lenBlock_pos (hwf b hb).1 (hwf b hb).2
  have hmemmap : lenBlock b ∈ (blocks.filter
      (fun b => decide (b.right_type = RightType.plena ∧ b.socio_id = s))).map lenBlock :=
    List.mem_map.mpr ⟨b, hbmem, rfl⟩
  have hall : ∀ x ∈ (blocks.filter
      (fun b => decide (b.right_type = RightType.plena ∧ b.socio_id = s))).map lenBlock,
      0 ≤ x := by
    intro x hx
    rw [List.mem_map] at hx
    obtain ⟨b2, hb2, rfl⟩ := hx
    have hb2m := (List.mem_filter.mp hb2).1
    have := lenBlock_pos (hwf b2 hb2m).1 (hwf b2 hb2m).2
    omega
  have := List.single_le_sum hall _ hmemmap
  omega

theorem sum_ite_eq_of_mem (x : Option ℤ) (v : ℤ) :
    ∀ S : List (Option ℤ), S.Nodup → x ∈ S →
      (S.map (fun s => if x = s then v else 0)).sum = v := by
  intro S
  induction S with
  | nil => intro _ hx; cases hx
  | cons s0 rest ih =>
    intro hnd hx
    rw [List.map_cons, List.sum_cons]
    rcases List.mem_cons.mp hx with rfl | hmem
    · rw [if_pos rfl]
      have hnotin : x ∉ rest := (List.nodup_cons.mp hnd).1
      have hzero : (rest.map (fun s => if x = s then v else 0)).sum = 0 := by
        apply List.sum_eq_zero
        intro y hy
        rw [List.mem_map] at hy
        obtain ⟨s2, hs2, rfl⟩ := hy
        rw [if_neg]
        rintro rfl
        exact hnotin hs2
      rw [hzero]
      ring
    · have hne : x ≠ s0 := by
        rintro rfl
        exact (List.nodup_cons.mp hnd).1 hmem
      rw [if_neg hne, ih (List.nodup_cons.mp hnd).2 hmem]
      ring

theorem group_sum_by_socio (S : List (Option ℤ)) (hS : S.Nodup) :
    ∀ L : List Block, (∀ b ∈ L, b.socio_id ∈ S) →
      (S.map (fun s => ((L.filter (fun b => decide (b.socio_id = s))).map
        lenBlock).sum)).sum = (L.map lenBlock).sum := by
  intro L
  induction L with
  | nil =>
    intro _
    simp
  | cons b rest ih =>
    intro hcov
    have hrest := ih (fun b2 hb2 => hcov b2 (by simp [hb2]))
    have hsplit : ∀ s : Option ℤ,
        (((b :: rest).filter (fun b2 => decide (b2.socio_id = s))).map lenBlock).sum
          = (if b.socio_id = s then lenBlock b else 0)
            + ((rest.filter (fun b2 => decide (b2.socio_id = s))).map lenBlock).sum := by
      intro s
      rw [List.filter_cons]
      by_cases hbs : b.socio_id = s
      · rw [if_pos (by simpa using hbs), List.map_cons, List.sum_cons, if_pos hbs]
      · rw [if_neg (by simpa using hbs), if_neg hbs]
        ring
    have hmapeq : S.map (fun s => (((b :: rest).filter
        (fun b2 => decide (b2.socio_id = s))).map lenBlock).sum)
        = S.map (fun s => (if b.socio_id = s then lenBlock b else 0)
            + ((rest.filter (fun b2 => decide (b2.socio_id = s))).map lenBlock).sum) :=
      List.map_congr_left (fun s _ => hsplit s)
    rw [hmapeq]
    have hadd := listSumAdd S (fun s => if b.socio_id = s then lenBlock b else 0)
      (fun s => ((rest.filter (fun b2 => decide (b2.socio_id = s))).map lenBlock).sum)
    rw [hadd, hrest, sum_ite_eq_of_mem _ _ S hS (hcov b (by simp)), List.map_cons,
      List.sum_cons]

theorem oldTotal_eq_plenaSum (blocks : List Block) :
    ((plenaSocios blocks).map (currentOf blocks)).sum = plenaSum blocks := by
  have h1 : (plenaSocios blocks).map (currentOf blocks)
      = (plenaSocios blocks).map (fun s =>
          (((blocks.filter (fun b => decide (b.right_type = RightType.plena))).filter
            (fun b => decide (b.socio_id = s))).map lenBlock).sum) :=
    List.map_congr_left (fun s _ => currentOf_filter blocks s)
  rw [h1]
  exact group_sum_by_socio (plenaSocios blocks) (plenaSocios_nodup blocks)
    (blocks.filter (fun b => decide (b.right_type = RightType.plena)))
    (fun b hb => mem_plenaSocios.mpr
      ⟨b, (List.mem_filter.mp hb).1, by simpa using (List.mem_filter.mp hb).2, rfl⟩)

theorem buildBlocks_map_socio (alloc : Option ℤ → ℤ) :
    ∀ (socios : List (Option ℤ)) (c : ℤ), (∀ s ∈ socios, 0 < alloc s) →
      (buildBlocks alloc socios c).map Block.socio_id = socios := by
  intro socios
  induction socios with
  | nil => intro c _; rfl
  | cons s rest ih =>
    intro c hpos
    have hs := hpos s (by simp)
    unfold buildBlocks
    rw [if_neg (by omega), List.map_cons, ih (c + alloc s) (fun x hx => hpos x (by simp [hx]))]

theorem buildBlocks_all_plena (alloc : Option ℤ → ℤ) :
    ∀ (socios : List (Option ℤ)) (c : ℤ) (b : Block), b ∈ buildBlocks alloc socios c →
      b.right_type = RightType.plena := by
  intro socios
  induction socios with
  | nil => intro c b hb; cases hb
  | cons s rest ih =>
    intro c b hb
    unfold buildBlocks at hb
    by_cases hs : alloc s ≤ 0
    · rw [if_pos hs] at hb
      exact ih _ b hb
    · rw [if_neg hs] at hb
      rcases List.mem_cons.mp hb with rfl | hmem
      · rfl
      · exact ih _ b hmem

theorem buildBlocks_wf (alloc : Option ℤ → ℤ) :
    ∀ (socios : List (Option ℤ)) (c : ℤ) (b : Block), b ∈ buildBlocks alloc socios c →
      Defined b ∧ NonDeg b := by
  intro socios
  induction socios with
  | nil => intro c b hb; cases hb
  | cons s rest ih =>
    intro c b hb
    unfold buildBlocks at hb
    by_cases hs : alloc s ≤ 0
    · rw [if_pos hs] at hb
      exact ih _ b hb
    · rw [if_neg hs] at hb
      rcases List.mem_cons.mp hb with rfl | hmem
      · refine ⟨⟨rfl, rfl⟩, ?_⟩
        intro a z ha hz
        simp only at ha hz
        cases ha; cases hz
        omega
      · exact ih _ b hmem

theorem buildBlocks_contiguous (alloc : Option ℤ → ℤ) :
    ∀ (socios : List (Option ℤ)) (c : ℤ), (∀ s ∈ socios, 0 < alloc s) →
      contiguousFrom c (buildBlocks alloc socios c) := by
  intro socios
  induction socios with
  | nil => intro c _; trivial
  | cons s rest ih =>
    intro c hpos
    have hs := hpos s (by simp)
    unfold buildBlocks
    rw [if_neg (by omega)]
    refine ⟨c + alloc s - 1, rfl, rfl, by omega, ?_⟩
    have := ih (c + alloc s) (fun x hx => hpos x (by simp [hx]))
    have harith : c + alloc s - 1 + 1 = c + alloc s := by ring
    rw [harith]
    exact this

theorem buildBlocks_currentOf (alloc : Option ℤ → ℤ) :
    ∀ (socios : List (Option ℤ)) (c : ℤ), socios.Nodup →
      (∀ s ∈ socios, 0 < alloc s) →
      ∀ s : Option ℤ, currentOf (buildBlocks alloc socios c) s
        = if s ∈ socios then alloc s else 0 := by
  intro socios
  induction socios with
  | nil =>
    intro c _ _ s
    rw [if_neg (by simp)]
    rfl
  | cons s0 rest ih =>
    intro c hnd hpos s
    have hs0 := hpos s0 (by simp)
    unfold buildBlocks
    rw [if_neg (by omega)]
    unfold currentOf
    rw [List.filter_cons]
    by_cases hss : s0 = s
    · subst hss
      rw [if_pos (by simp), List.map_cons, List.sum_cons]
      have hnotin : s0 ∉ rest := (List.nodup_cons.mp hnd).1
      have hrest := ih (c + alloc s0) (List.nodup_cons.mp hnd).2
        (fun x hx => hpos x (by simp [hx])) s0
      rw [if_neg hnotin] at hrest
      unfold currentOf at hrest
      rw [hrest, if_pos (by simp)]
      unfold lenBlock
      simp only [Option.getD_some]
      ring
    · rw [if_neg (by simp [hss])]
      have hrest := ih (c + alloc s0) (List.nodup_cons.mp hnd).2
        (fun x hx => hpos x (by simp [hx])) s
      unfold currentOf at hrest
      rw [hrest]
      by_cases hmem : s ∈ rest
      · rw [if_pos hmem, if_pos (by simp [hmem])]
      · rw [if_neg hmem, if_neg (by
          simp only [List.mem_cons, hmem, or_false]
          exact fun hc => hss hc.symm)]

theorem buildBlocks_plenaSum (alloc : Option ℤ → ℤ) :
    ∀ (socios : List (Option ℤ)) (c : ℤ), (∀ s ∈ socios, 0 < alloc s) →
      plenaSum (buildBlocks alloc socios c) = (socios.map alloc).sum := by
  intro socios
  induction socios with
  | nil => intro c _; rfl
  | cons s rest ih =>
    intro c hpos
    have hs := hpos s (by simp)
    unfold buildBlocks
    rw [if_neg (by omega)]
    unfold plenaSum
    rw [List.filter_cons, if_pos (by simp), List.map_cons, List.sum_cons]
    have hrest := ih (c + alloc s) (fun x hx => hpos x (by simp [hx]))
    unfold plenaSum at hrest
    rw [hrest, List.map_cons, List.sum_cons]
    unfold lenBlock
    simp only [Option.getD_some]
    ring

theorem mergeRun_no_merge :
    ∀ (rest : List Block) (c : Block),
      (c :: rest).Pairwise (fun x y => x.socio_id ≠ y.socio_id) →
      mergeRun c rest = c :: rest := by
  intro rest
  induction rest with
  | nil => intro c _; rfl
  | cons b0 rest2 ih =>
    intro c hpw
    unfold mergeRun
    rw [if_neg]
    · rw [ih b0 (List.pairwise_cons.mp hpw).2]
    · rintro ⟨hs, _, _⟩
      exact absurd hs.symm ((List.pairwise_cons.mp hpw).1 b0 (by simp))

theorem consolidate_eq_self_of {B : List Block}
    (hdef : ∀ b ∈ B, Defined b)
    (hsorted : B.Pairwise blockLeR)
    (hneq : B.Pairwise (fun x y => x.socio_id ≠ y.socio_id)) :
    consolidate B = B := by
  unfold consolidate
  have hclean : cleanBlocks B = B := by
    apply List.filter_eq_self.mpr
    intro b hb
    have := hdef b hb
    rw [Bool.and_eq_true]
    exact ⟨this.1, this.2⟩
  rw [hclean, List.Sorted.insertionSort_eq hsorted]
  cases B with
  | nil => rfl
  | cons c rest => exact mergeRun_no_merge rest c hneq

theorem currentOf_eq_zero {blocks : List Block} {s : Option ℤ}
    (hs : s ∉ plenaSocios blocks) : currentOf blocks s = 0 := by
  unfold currentOf
  have hnil : blocks.filter
      (fun b => decide (b.right_type = RightType.plena ∧ b.socio_id = s)) = [] := by
    rw [List.filter_eq_nil]
    intro b hb hc
    rw [decide_eq_true_eq] at hc
    exact hs (mem_plenaSocios.mpr ⟨b, hb, hc.1, hc.2⟩)
  rw [hnil]
  rfl

/-- C8: a day-close redenomination that declares no new nominal value and
sees a positive outstanding total is a pure compaction: it succeeds, every
holder's full-ownership total is unchanged, the rebuilt blocks are one
contiguous nonempty range per holder starting at unit 1 in ascending
holder id order, all full ownership, the new total equals the old total,
and nominal value times total is conserved. -/
theorem c8_compaction_redenomination (day : List Event) (blocks : List Block)
    (vn : ℚ) (total : ℤ)
    (hday : day.any (fun e => isReden e) = true)
    (hnovn : (day.filter (fun e => isReden e)).filterMap Event.nuevo_valor_nominal = [])
    (hwf : ∀ b ∈ blocks, Defined b ∧ NonDeg b)
    (hsome : ∀ b ∈ blocks, b.right_type = RightType.plena → b.socio_id.isSome = true)
    (hpos : 0 < ((plenaSocios blocks).map (currentOf blocks)).sum) :
    ∃ bl2, redenStep day blocks vn total
        = Except.ok (bl2, vn, ((plenaSocios blocks).map (currentOf blocks)).sum) ∧
      (∀ s, currentOf bl2 s = currentOf blocks s) ∧
      contiguousFrom 1 bl2 ∧
      bl2.Pairwise (fun x y => x.socio_id.getD 0 < y.socio_id.getD 0) ∧
      (∀ b ∈ bl2, b.right_type = RightType.plena) ∧
      plenaSum bl2 = plenaSum blocks ∧
      vn * ((plenaSum bl2 : ℤ) : ℚ) = vn * ((plenaSum blocks : ℤ) : ℚ) := by
  have hok : redenNewVN day = Except.ok none := by
    unfold redenNewVN
    rw [hnovn]
  have hOne : ((plenaSocios blocks).map (currentOf blocks)).sum ≠ 0 := by omega
  have hQne : ((((plenaSocios blocks).map (currentOf blocks)).sum : ℤ) : ℚ) ≠ 0 := by
    exact_mod_cast hOne
  have hexact : ∀ s, exactQ (currentOf blocks)
      ((plenaSocios blocks).map (currentOf blocks)).sum
      ((plenaSocios blocks).map (currentOf blocks)).sum s
      = ((currentOf blocks s : ℤ) : ℚ) := by
    intro s
    unfold exactQ
    rw [Int.cast_mul, mul_div_assoc, div_self hQne, mul_one]
  have hbase : ∀ s, baseI (currentOf blocks)
      ((plenaSocios blocks).map (currentOf blocks)).sum
      ((plenaSocios blocks).map (currentOf blocks)).sum s = currentOf blocks s := by
    intro s
    unfold baseI
    rw [hexact s]
    exact Int.floor_intCast _
  have hasig : asignadas (plenaSocios blocks) (currentOf blocks)
      ((plenaSocios blocks).map (currentOf blocks)).sum
      ((plenaSocios blocks).map (currentOf blocks)).sum
      = ((plenaSocios blocks).map (currentOf blocks)).sum := by
    unfold asignadas
    rw [List.map_congr_left (fun s _ => hbase s)]
  have hresto : restoI (plenaSocios blocks) (currentOf blocks)
      ((plenaSocios blocks).map (currentOf blocks)).sum
      ((plenaSocios blocks).map (currentOf blocks)).sum = 0 := by
    unfold restoI
    rw [hasig]
    ring
  have hbumped : bumped (plenaSocios blocks) (currentOf blocks)
      ((plenaSocios blocks).map (currentOf blocks)).sum
      ((plenaSocios blocks).map (currentOf blocks)).sum = [] := by
    unfold bumped
    rw [hresto]
    rfl
  have hallocfun : allocOf (plenaSocios blocks) (currentOf blocks)
      ((plenaSocios blocks).map (currentOf blocks)).sum
      ((plenaSocios blocks).map (currentOf blocks)).sum = currentOf blocks := by
    funext s
    unfold allocOf
    rw [hbumped, if_neg (List.not_mem_nil s), hbase s]
    ring
  have hposall : ∀ s ∈ plenaSocios blocks, 0 < currentOf blocks s := by
    intro s hs
    have := currentOf_pos hwf hs
    omega
  have hsomeall : ∀ s ∈ plenaSocios blocks, s.isSome = true := by
    intro s hs
    obtain ⟨b, hb, ht, hsid⟩ := mem_plenaSocios.mp hs
    rw [← hsid]
    exact hsome b hb ht
  have hsolt : (plenaSocios blocks).Pairwise (fun a b => a.getD 0 < b.getD 0) := by
    have hle := plenaSocios_sorted blocks
    have hnd := plenaSocios_nodup blocks
    have hcomb := List.Pairwise.and hle hnd
    refine hcomb.imp_of_mem ?_
    intro a b ha hb hab
    obtain ⟨hle2, hne⟩ := hab
    obtain ⟨va, hva⟩ := Option.isSome_iff_exists.mp (hsomeall a ha)
    obtain ⟨vb, hvb⟩ := Option.isSome_iff_exists.mp (hsomeall b hb)
    unfold socioLeR at hle2
    rcases lt_or_eq_of_le hle2 with h | h
    · exact h
    · exfalso
      apply hne
      rw [hva, hvb] at h ⊢
      simp only [Option.getD_some] at h
      rw [h]
  have hmapsocio := buildBlocks_map_socio (currentOf blocks) (plenaSocios blocks) 1 hposall
  have hBlt : (buildBlocks (currentOf blocks) (plenaSocios blocks) 1).Pairwise
      (fun x y => x.socio_id.getD 0 < y.socio_id.getD 0) := by
    have h2 : ((buildBlocks (currentOf blocks) (plenaSocios blocks) 1).map
        Block.socio_id).Pairwise (fun a b => a.getD 0 < b.getD 0) := by
      rw [hmapsocio]
      exact hsolt
    exact List.Pairwise.of_map Block.socio_id (fun a b h => h) h2
  have hBneq : (buildBlocks (currentOf blocks) (plenaSocios blocks) 1).Pairwise
      (fun x y => x.socio_id ≠ y.socio_id) := by
    refine hBlt.imp ?_
    intro x y h hc
    rw [hc] at h
    exact lt_irrefl _ h
  have hBle : (buildBlocks (currentOf blocks) (plenaSocios blocks) 1).Pairwise
      blockLeR := by
    refine hBlt.imp ?_
    intro x y h
    unfold blockLeR blockKey
    rw [Prod.Lex.le_iff]
    exact Or.inl h
  have hBdef : ∀ b ∈ buildBlocks (currentOf blocks) (plenaSocios blocks) 1,
      Defined b := fun b hb => (buildBlocks_wf _ _ _ b hb).1
  have hcons : consolidate (buildBlocks (currentOf blocks) (plenaSocios blocks) 1)
      = buildBlocks (currentOf blocks) (plenaSocios blocks) 1 :=
    consolidate_eq_self_of hBdef hBle hBneq
  have hpsum : plenaSum (buildBlocks (currentOf blocks) (plenaSocios blocks) 1)
      = plenaSum blocks := by
    rw [buildBlocks_plenaSum _ _ 1 hposall]
    exact oldTotal_eq_plenaSum blocks
  refine ⟨buildBlocks (currentOf blocks) (plenaSocios blocks) 1, ?_, ?_, ?_, ?_, ?_, ?_, ?_⟩
  · simp only [redenStep, hday, hok, hallocfun, if_neg hOne]
    rw [hcons, if_pos trivial]
  · intro s
    rw [buildBlocks_currentOf (currentOf blocks) (plenaSocios blocks) 1
      (plenaSocios_nodup blocks) hposall s]
    by_cases hs : s ∈ plenaSocios blocks
    · rw [if_pos hs]
    · rw [if_neg hs, currentOf_eq_zero hs]
  · exact buildBlocks_contiguous _ _ 1 hposall
  · exact hBlt
  · exact fun b hb => buildBlocks_all_plena _ _ _ b hb
  · exact hpsum
  · rw [hpsum]

/-- Witness for C8 at a concrete day with one valueless redenomination
over a single holder owning units 3 to 12. -/
theorem c8_compaction_redenomination_witness :
    (([Event.mk 2 "REDENOMINACION" none none none none none] : List Event).any
        (fun e => isReden e) = true ∧
     (([Event.mk 2 "REDENOMINACION" none none none none none] : List Event).filter
        (fun e => isReden e)).filterMap Event.nuevo_valor_nominal = [] ∧
     (∀ b ∈ [Block.mk (some 1) RightType.plena (some 3) (some 12)],
        Defined b ∧ NonDeg b) ∧
     (∀ b ∈ [Block.mk (some 1) RightType.plena (some 3) (some 12)],
        b.right_type = RightType.plena → b.socio_id.isSome = true) ∧
     0 < ((plenaSocios [Block.mk (some 1) RightType.plena (some 3) (some 12)]).map
        (currentOf [Block.mk (some 1) RightType.plena (some 3) (some 12)])).sum) ∧
    (∃ bl2, redenStep [Event.mk 2 "REDENOMINACION" none none none none none]
        [Block.mk (some 1) RightType.plena (some 3) (some 12)] 5 10
        = Except.ok (bl2, 5,
          ((plenaSocios [Block.mk (some 1) RightType.plena (some 3) (some 12)]).map
            (currentOf [Block.mk (some 1) RightType.plena (some 3) (some 12)])).sum) ∧
      (∀ s, currentOf bl2 s
        = currentOf [Block.mk (some 1) RightType.plena (some 3) (some 12)] s) ∧
      contiguousFrom 1 bl2 ∧
      bl2.Pairwise (fun x y => x.socio_id.getD 0 < y.socio_id.getD 0) ∧
      (∀ b ∈ bl2, b.right_type = RightType.plena) ∧
      plenaSum bl2 = plenaSum [Block.mk (some 1) RightType.plena (some 3) (some 12)] ∧
      (5 : ℚ) * ((plenaSum bl2 : ℤ) : ℚ)
        = 5 * ((plenaSum [Block.mk (some 1) RightType.plena (some 3) (some 12)] : ℤ)
            : ℚ)) := by
  refine ⟨⟨by decide, by decide, by decide, by decide, by decide⟩, ?_⟩
  exact c8_compaction_redenomination
    [Event.mk 2 "REDENOMINACION" none none none none none]
    [Block.mk (some 1) RightType.plena (some 3) (some 12)] 5 10
    (by decide) (by decide) (by decide) (by decide) (by decide)

theorem mergeRangesRun_inRanges :
    ∀ (rest : List (ℤ × ℤ)) (c : ℤ × ℤ),
      (c :: rest).Pairwise (fun x y => x.1 ≤ y.1) →
      ∀ u, inRanges (mergeRangesRun c rest) u ↔ inRanges (c :: rest) u := by
  intro rest
  induction rest with
  | nil =>
    intro c _ u
    rfl
  | cons p rest2 ih =>
    intro c hpw u
    unfold mergeRangesRun
    have hc1p1 : c.1 ≤ p.1 := (List.pairwise_cons.mp hpw).1 p (by simp)
    by_cases hcond : p.1 ≤ c.2 + 1
    · rw [if_pos hcond]
      have hpw2 : ((c.1, max c.2 p.2) :: rest2).Pairwise (fun x y => x.1 ≤ y.1) := by
        rw [List.pairwise_cons]
        refine ⟨?_, (List.pairwise_cons.mp (List.pairwise_cons.mp hpw).2).2⟩
        intro q hq
        have h1 : c.1 ≤ q.1 := (List.pairwise_cons.mp hpw).1 q (by simp [hq])
        exact h1
      rw [ih _ hpw2 u]
      unfold inRanges
      constructor
      · rintro ⟨q, hq, hq1, hq2⟩
        rcases List.mem_cons.mp hq with heq | hmem
        · rw [heq] at hq1 hq2
          simp only at hq1 hq2
          by_cases hu : u ≤ c.2
          · exact ⟨c, by simp, hq1, hu⟩
          · have hup2 : u ≤ p.2 := by
              rcases le_max_iff.mp hq2 with h | h
              · exact absurd h hu
              · exact h
            refine ⟨p, by simp, by omega, hup2⟩
        · exact ⟨q, by simp [hmem], hq1, hq2⟩
      · rintro ⟨q, hq, hq1, hq2⟩
        rcases List.mem_cons.mp hq with heq | hmem
        · refine ⟨(c.1, max c.2 p.2), by simp, ?_, ?_⟩
          · rw [heq] at hq1
            simpa using hq1
          · rw [heq] at hq2
            simp only
            exact le_trans hq2 (le_max_left _ _)
        · rcases List.mem_cons.mp hmem with heq | hmem2
          · refine ⟨(c.1, max c.2 p.2), by simp, ?_, ?_⟩
            · rw [heq] at hq1
              simp only
              omega
            · rw [heq] at hq2
              simp only
              exact le_trans hq2 (le_max_right _ _)
          · exact ⟨q, by simp [hmem2], hq1, hq2⟩
    · rw [if_neg hcond]
      have hpw2 : (p :: rest2).Pairwise (fun x y => x.1 ≤ y.1) :=
        (List.pairwise_cons.mp hpw).2
      unfold inRanges
      constructor
      · rintro ⟨q, hq, hq1, hq2⟩
        rcases List.mem_cons.mp hq with rfl | hmem
        · exact ⟨q, by simp, hq1, hq2⟩
        · have := (ih p hpw2 u).mp ⟨q, hmem, hq1, hq2⟩
          obtain ⟨q2, hq2m, hq21, hq22⟩ := this
          exact ⟨q2, by simp [List.mem_cons.mp hq2m], hq21, hq22⟩
      · rintro ⟨q, hq, hq1, hq2⟩
        rcases List.mem_cons.mp hq with rfl | hmem
        · exact ⟨q, by simp, hq1, hq2⟩
        · have := (ih p hpw2 u).mpr ⟨q, hmem, hq1, hq2⟩
          obtain ⟨q2, hq2m, hq21, hq22⟩ := this
          exact ⟨q2, by simp [hq2m], hq21, hq22⟩

theorem mergeRanges_inRanges (ranges : List (ℤ × ℤ)) (u : ℤ) :
    inRanges (mergeRanges ranges) u ↔ inRanges ranges u := by
  have hperm := List.perm_insertionSort rangeLeR ranges
  have hsorted : (List.insertionSort rangeLeR ranges).Pairwise
      (fun x y : ℤ × ℤ => x.1 ≤ y.1) := by
    refine (List.sorted_insertionSort rangeLeR ranges).imp ?_
    intro x y h
    unfold rangeLeR at h
    rw [Prod.Lex.le_iff] at h
    rcases h with h | ⟨h, _⟩
    · exact le_of_lt h
    · exact le_of_eq h
  rcases hs : List.insertionSort rangeLeR ranges with _ | ⟨c, rest⟩
  · have hr : ranges = [] := by
      rw [hs] at hperm
      exact hperm.symm.eq_nil
    have hm : mergeRanges ranges = [] := by
      unfold mergeRanges
      rw [hs]
    rw [hm, hr]
  · rw [hs] at hsorted hperm
    have hm : mergeRanges ranges = mergeRangesRun c rest := by
      unfold mergeRanges
      rw [hs]
    rw [hm, mergeRangesRun_inRanges rest c hsorted u]
    unfold inRanges
    constructor
    · rintro ⟨q, hq, h1, h2⟩
      exact ⟨q, hperm.mem_iff.mp hq, h1, h2⟩
    · rintro ⟨q, hq, h1, h2⟩
      exact ⟨q, hperm.mem_iff.mpr hq, h1, h2⟩

theorem subtractOne_inRanges (base : List (ℤ × ℤ)) (cut : ℤ × ℤ) (u : ℤ) :
    inRanges (subtractOne base cut) u ↔
      inRanges base u ∧ ¬ (cut.1 ≤ u ∧ u ≤ cut.2) := by
  rcases base with _ | ⟨p0, rest0⟩
  · constructor
    · rintro ⟨q, hq, _⟩
      cases hq
    · rintro ⟨⟨q, hq, _⟩, _⟩
      cases hq
  · show inRanges (mergeRanges _) u ↔ _
    rw [mergeRanges_inRanges]
    have hfilter : ∀ (l : List (ℤ × ℤ)),
        inRanges (l.filter (fun p => decide (p.1 ≤ p.2))) u ↔ inRanges l u := by
      intro l
      unfold inRanges
      constructor
      · rintro ⟨q, hq, h1, h2⟩
        exact ⟨q, (List.mem_filter.mp hq).1, h1, h2⟩
      · rintro ⟨q, hq, h1, h2⟩
        exact ⟨q, List.mem_filter.mpr ⟨hq, by simp; omega⟩, h1, h2⟩
    rw [hfilter]
    unfold inRanges
    constructor
    · rintro ⟨q, hq, h1, h2⟩
      rw [List.mem_flatMap] at hq
      obtain ⟨p, hp, hqp⟩ := hq
      by_cases hdisj : cut.2 < p.1 ∨ cut.1 > p.2
      · rw [if_pos hdisj] at hqp
        rw [List.mem_singleton] at hqp
        subst hqp
        exact ⟨⟨q, hp, h1, h2⟩, by omega⟩
      · rw [if_neg hdisj] at hqp
        push_neg at hdisj
        rw [List.mem_append] at hqp
        rcases hqp with hqp | hqp
        · by_cases hlt : p.1 < cut.1
          · rw [if_pos hlt, List.mem_singleton] at hqp
            subst hqp
            simp only at h1 h2
            exact ⟨⟨p, hp, h1, by omega⟩, by omega⟩
          · rw [if_neg hlt] at hqp
            cases hqp
        · by_cases hlt : cut.2 < p.2
          · rw [if_pos hlt, List.mem_singleton] at hqp
            subst hqp
            simp only at h1 h2
            exact ⟨⟨p, hp, by omega, h2⟩, by omega⟩
          · rw [if_neg hlt] at hqp
            cases hqp
    · rintro ⟨⟨p, hp, h1, h2⟩, hout⟩
      rw [not_and_or] at hout
      push_neg at hout
      by_cases hdisj : cut.2 < p.1 ∨ cut.1 > p.2
      · refine ⟨p, ?_, h1, h2⟩
        rw [List.mem_flatMap]
        refine ⟨p, hp, ?_⟩
        rw [if_pos hdisj]
        simp
      · push_neg at hdisj
        rcases hout with hlt | hgt
        · refine ⟨(p.1, cut.1 - 1), ?_, by simpa using h1, by simp; omega⟩
          rw [List.mem_flatMap]
          refine ⟨p, hp, ?_⟩
          rw [if_neg (by push_neg; exact hdisj)]
          rw [List.mem_append]
          left
          rw [if_pos (by omega)]
          simp
        · refine ⟨(cut.2 + 1, p.2), ?_, by simp; omega, by simpa using h2⟩
          rw [List.mem_flatMap]
          refine ⟨p, hp, ?_⟩
          rw [if_neg (by push_neg; exact hdisj)]
          rw [List.mem_append]
          right
          rw [if_pos (by omega)]
          simp

/-- C4 counterexample: a pledge over units 1 to 10 followed by a
cancellation over units 1 to 5 leaves the pledge overlay block untouched
in the replay output; unit 3 is still encumbered although the
cancellation covered it, so the engine does not subtract cancellations by
range-difference. -/
theorem c4_cancellation_counterexample :
    applyEvents
      [Event.mk 0 "ALTA" none (some 1) (some 1) (some 10) none,
       Event.mk 1 "PIGNORACION" (some 1) (some 9) (some 1) (some 10) none,
       Event.mk 2 "CANCELA_PIGNORACION" (some 1) (some 9) (some 1) (some 5) none]
      5 0
      = Except.ok ([Block.mk (some 1) RightType.plena (some 1) (some 10),
          Block.mk (some 9) RightType.prenda (some 1) (some 10)], 5, 10, some 2) ∧
    covered [Block.mk (some 1) RightType.plena (some 1) (some 10),
      Block.mk (some 9) RightType.prenda (some 1) (some 10)]
      (some 9) RightType.prenda 3 :=
  ⟨by decide, by decide⟩

/-- C4 amended: the replay engine ignores cancellation events entirely (a
day of only cancellation-typed events leaves the block set and nominal
value unchanged); range-difference cancellation lives in the reporting
layer, whose subtract_one removes exactly the cancelled sub-range from
the active encumbrance ranges. -/
theorem c4_cancellation_amended :
    (∀ (day : List Event) (st r : EngineState),
      (∀ e ∈ day, e.tipo = "CANCELA_PIGNORACION" ∨ e.tipo = "CANCELA_EMBARGO" ∨
        e.tipo = "LEV_GRAVAMEN" ∨ e.tipo = "ALZAMIENTO") →
      applyDay day st = Except.ok r →
      r.blocks = st.blocks ∧ r.valor_nominal = st.valor_nominal) ∧
    (∀ (base : List (ℤ × ℤ)) (cut : ℤ × ℤ) (u : ℤ),
      inRanges (subtractOne base cut) u ↔
        inRanges base u ∧ ¬ (cut.1 ≤ u ∧ u ≤ cut.2)) := by
  constructor
  · intro day st r hcancel happ
    have hfb : day.filter (fun e => isBaja e) = [] := by
      rw [List.filter_eq_nil]
      intro e he
      rcases hcancel e he with h | h | h | h <;>
        · unfold isBaja
          rw [h]
          decide
    have hft : day.filter (fun e => isTrans e) = [] := by
      rw [List.filter_eq_nil]
      intro e he
      rcases hcancel e he with h | h | h | h <;>
        · unfold isTrans
          rw [h]
          decide
    have hfa : day.filter (fun e => isAlta e) = [] := by
      rw [List.filter_eq_nil]
      intro e he
      rcases hcancel e he with h | h | h | h <;>
        · unfold isAlta
          rw [h]
          decide
    have hfe : day.filter (fun e => isEncumbrance e) = [] := by
      rw [List.filter_eq_nil]
      intro e he
      rcases hcancel e he with h | h | h | h <;>
        · unfold isEncumbrance
          rw [h]
          decide
    have hfv : day.filter (fun e => isValor e) = [] := by
      rw [List.filter_eq_nil]
      intro e he
      rcases hcancel e he with h | h | h | h <;>
        · unfold isValor
          rw [h]
          decide
    have hfr : day.filter (fun e => isReden e) = [] := by
      rw [List.filter_eq_nil]
      intro e he
      rcases hcancel e he with h | h | h | h <;>
        · unfold isReden
          rw [h]
          decide
    unfold applyDay at happ
    rw [hfb, hft, hfa, hfe, hfv, hfr] at happ
    unfold applyDayCore redenStep at happ
    simp only [List.insertionSort, List.foldl_nil, List.any_nil] at happ
    rw [if_neg (by decide)] at happ
    injection happ with h2
    rw [← h2]
    exact ⟨rfl, rfl⟩
  · exact subtractOne_inRanges

/-- Witness for C4 at a concrete cancellation-only day and a concrete
range subtraction. -/
theorem c4_cancellation_amended_witness :
    ((∀ e ∈ [Event.mk 7 "CANCELA_EMBARGO" (some 1) (some 9) (some 2) (some 4) none],
        e.tipo = "CANCELA_PIGNORACION" ∨ e.tipo = "CANCELA_EMBARGO" ∨
        e.tipo = "LEV_GRAVAMEN" ∨ e.tipo = "ALZAMIENTO") ∧
      applyDay [Event.mk 7 "CANCELA_EMBARGO" (some 1) (some 9) (some 2) (some 4) none]
        (EngineState.mk [Block.mk (some 1) RightType.plena (some 1) (some 10)] 5 10)
        = Except.ok
          (EngineState.mk [Block.mk (some 1) RightType.plena (some 1) (some 10)] 5 10)) ∧
    ((EngineState.mk [Block.mk (some 1) RightType.plena (some 1) (some 10)] 5 10).blocks
        = [Block.mk (some 1) RightType.plena (some 1) (some 10)] ∧
      (5 : ℚ) = 5) ∧
    (inRanges (subtractOne [((1 : ℤ), (10 : ℤ))] (3, 5)) 4 ↔
      inRanges [((1 : ℤ), (10 : ℤ))] 4 ∧ ¬ ((3 : ℤ) ≤ 4 ∧ (4 : ℤ) ≤ 5)) := by
  refine ⟨⟨by decide, by decide⟩, ?_, ?_⟩
  · exact c4_cancellation_amended.1
      [Event.mk 7 "CANCELA_EMBARGO" (some 1) (some 9) (some 2) (some 4) none]
      (EngineState.mk [Block.mk (some 1) RightType.plena (some 1) (some 10)] 5 10)
      (EngineState.mk [Block.mk (some 1) RightType.plena (some 1) (some 10)] 5 10)
      (by decide) (by decide)
  · exact c4_cancellation_amended.2 [((1 : ℤ), (10 : ℤ))] (3, 5) 4

theorem coversStep_inRanges (need : List (ℤ × ℤ)) (blk : ℤ × ℤ) (u : ℤ) :
    inRanges (coversStep need blk) u ↔
      inRanges need u ∧ ¬ (blk.1 ≤ u ∧ u ≤ blk.2) := by
  unfold coversStep inRanges
  constructor
  · rintro ⟨q, hq, h1, h2⟩
    have hq2 := (List.mem_filter.mp hq).1
    rw [List.mem_flatMap] at hq2
    obtain ⟨p, hp, hqp⟩ := hq2
    by_cases hdisj : blk.2 < p.1 ∨ blk.1 > p.2
    · rw [if_pos hdisj] at hqp
      rw [List.mem_singleton] at hqp
      subst hqp
      exact ⟨⟨q, hp, h1, h2⟩, by omega⟩
    · rw [if_neg hdisj] at hqp
      push_neg at hdisj
      rw [List.mem_append] at hqp
      rcases hqp with hqp | hqp
      · by_cases hlt : blk.1 > p.1
        · rw [if_pos hlt, List.mem_singleton] at hqp
          subst hqp
          simp only at h1 h2
          exact ⟨⟨p, hp, h1, by omega⟩, by omega⟩
        · rw [if_neg hlt] at hqp
          cases hqp
      · by_cases hlt : blk.2 < p.2
        · rw [if_pos hlt, List.mem_singleton] at hqp
          subst hqp
          simp only at h1 h2
          exact ⟨⟨p, hp, by omega, h2⟩, by omega⟩
        · rw [if_neg hlt] at hqp
          cases hqp
  · rintro ⟨⟨p, hp, h1, h2⟩, hout⟩
    rw [not_and_or] at hout
    push_neg at hout
    by_cases hdisj : blk.2 < p.1 ∨ blk.1 > p.2
    · refine ⟨p, ?_, h1, h2⟩
      rw [List.mem_filter]
      refine ⟨?_, by simp; omega⟩
      rw [List.mem_flatMap]
      refine ⟨p, hp, ?_⟩
      rw [if_pos hdisj]
      simp
    · push_neg at hdisj
      rcases hout with hlt | hgt
      · refine ⟨(p.1, blk.1 - 1), ?_, by simpa using h1, by simp; omega⟩
        rw [List.mem_filter]
        refine ⟨?_, by simp; omega⟩
        rw [List.mem_flatMap]
        refine ⟨p, hp, ?_⟩
        rw [if_neg (by push_neg; exact hdisj), List.mem_append]
        left
        rw [if_pos (by omega)]
        simp
      · refine ⟨(blk.2 + 1, p.2), ?_, by simp; omega, by simpa using h2⟩
        rw [List.mem_filter]
        refine ⟨?_, by simp; omega⟩
        rw [List.mem_flatMap]
        refine ⟨p, hp, ?_⟩
        rw [if_neg (by push_neg; exact hdisj), List.mem_append]
        right
        rw [if_pos (by omega)]
        simp

theorem coversStep_nonneg (need : List (ℤ × ℤ)) (blk : ℤ × ℤ) :
    ∀ q ∈ coversStep need blk, q.1 ≤ q.2 := by
  intro q hq
  have := (List.mem_filter.mp hq).2
  simpa using this

theorem coversAux_iff :
    ∀ (blocks need : List (ℤ × ℤ)), (∀ q ∈ need, q.1 ≤ q.2) →
      (coversAux need blocks = true ↔ ∀ u, inRanges need u → inRanges blocks u) := by
  intro blocks
  induction blocks with
  | nil =>
    intro need hneed
    unfold coversAux
    constructor
    · intro hemp u hu
      rw [List.isEmpty_iff] at hemp
      subst hemp
      obtain ⟨q, hq, _⟩ := hu
      cases hq
    · intro hcov
      rw [List.isEmpty_iff]
      rcases hn : need with _ | ⟨q, rest⟩
      · rfl
      · exfalso
        have hq12 : q.1 ≤ q.2 := hneed q (by rw [hn]; simp)
        have : inRanges [] q.1 := hcov q.1 ⟨q, by rw [hn]; simp, le_refl _, hq12⟩
        obtain ⟨p, hp, _⟩ := this
        cases hp
  | cons blk rest ih =>
    intro need hneed
    unfold coversAux
    by_cases hemp : (coversStep need blk).isEmpty
    · rw [if_pos hemp]
      simp only [true_iff]
      intro u hu
      by_cases hin : blk.1 ≤ u ∧ u ≤ blk.2
      · exact ⟨blk, by simp, hin.1, hin.2⟩
      · exfalso
        have : inRanges (coversStep need blk) u :=
          (coversStep_inRanges need blk u).mpr ⟨hu, hin⟩
        rw [List.isEmpty_iff] at hemp
        rw [hemp] at this
        obtain ⟨p, hp, _⟩ := this
        cases hp
    · rw [if_neg hemp]
      rw [ih (coversStep need blk) (coversStep_nonneg need blk)]
      constructor
      · intro hcov u hu
        by_cases hin : blk.1 ≤ u ∧ u ≤ blk.2
        · exact ⟨blk, by simp, hin.1, hin.2⟩
        · have hcstep : inRanges (coversStep need blk) u :=
            (coversStep_inRanges need blk u).mpr ⟨hu, hin⟩
          obtain ⟨p, hp, h1, h2⟩ := hcov u hcstep
          exact ⟨p, by simp [hp], h1, h2⟩
      · intro hcov u hu
        have := (coversStep_inRanges need blk u).mp hu
        obtain ⟨hneedu, hout⟩ := this
        obtain ⟨p, hp, h1, h2⟩ := hcov u hneedu
        rcases List.mem_cons.mp hp with heq | hmem
        · exfalso
          rw [heq] at h1 h2
          exact hout ⟨h1, h2⟩
        · exact ⟨p, hmem, h1, h2⟩

/-- C5 counterexample: a transfer over units the transmitting holder does
not own at all is applied without any error by the replay engine: the
acquiring holder ends up owning units 1 to 10 that nobody held. -/
theorem c5_insufficient_rights_counterexample :
    applyEvents [Event.mk 1 "TRANSMISION" (some 1) (some 2) (some 1) (some 10) none] 5 0
      = Except.ok ([Block.mk (some 2) RightType.plena (some 1) (some 10)], 5, 10, some 1) ∧
    covered [Block.mk (some 2) RightType.plena (some 1) (some 10)]
      (some 2) RightType.plena 5 :=
  ⟨by decide, by decide⟩

/-- C5 amended: the replay engine applies transfer days without any
ownership check and never raises there; the insufficient-rights check
lives in the legacy validation function, whose covers test succeeds
exactly when the transmitting holder's full-ownership blocks cover every
unit of the requested range. -/
theorem c5_insufficient_rights_amended :
    (∀ (day : List Event) (st : EngineState), (∀ e ∈ day, isTrans e = true) →
      ∃ r, applyDay day st = Except.ok r) ∧
    (∀ (blocks : List (ℤ × ℤ)) (d h : ℤ), d ≤ h →
      (covers blocks d h = true ↔ ∀ u : ℤ, d ≤ u → u ≤ h → inRanges blocks u)) := by
  constructor
  · intro day st htrans
    have hfr : day.filter (fun e => isReden e) = [] := by
      rw [List.filter_eq_nil]
      intro e he
      have ht := htrans e he
      unfold isTrans at ht
      rw [Bool.or_eq_true] at ht
      rcases ht with ht | ht <;>
        · rw [beq_iff_eq] at ht
          unfold isReden
          rw [ht]
          decide
    have hrnil : ∀ (bl : List Block) (vn : ℚ) (t : ℤ),
        redenStep [] bl vn t = Except.ok (bl, vn, t) := by
      intro bl vn t
      unfold redenStep
      rw [if_neg (by decide)]
    unfold applyDay
    rw [hfr]
    unfold applyDayCore
    simp only [hrnil]
    exact ⟨_, rfl⟩
  · intro blocks d h hdh
    unfold covers
    rw [coversAux_iff blocks [(d, h)] (by intro q hq; rw [List.mem_singleton] at hq; rw [hq]; exact hdh)]
    constructor
    · intro hcov u h1 h2
      exact hcov u ⟨(d, h), by simp, h1, h2⟩
    · rintro hcov u ⟨q, hq, h1, h2⟩
      rw [List.mem_singleton] at hq
      subst hq
      exact hcov u h1 h2

/-- Witness for C5 at a concrete transfer-only day and a concrete covers
check. -/
theorem c5_insufficient_rights_amended_witness :
    ((∀ e ∈ [Event.mk 1 "TRANSMISION" (some 1) (some 2) (some 3) (some 4) none],
        isTrans e = true) ∧
     (1 : ℤ) ≤ 6) ∧
    (∃ r, applyDay [Event.mk 1 "TRANSMISION" (some 1) (some 2) (some 3) (some 4) none]
        (EngineState.mk [] 5 0) = Except.ok r) ∧
    (covers [((1 : ℤ), (4 : ℤ)), ((5 : ℤ), (9 : ℤ))] 1 6 = true ↔
      ∀ u : ℤ, 1 ≤ u → u ≤ 6 → inRanges [((1 : ℤ), (4 : ℤ)), ((5 : ℤ), (9 : ℤ))] u) := by
  refine ⟨⟨by decide, by decide⟩, ?_, ?_⟩
  · exact c5_insufficient_rights_amended.1
      [Event.mk 1 "TRANSMISION" (some 1) (some 2) (some 3) (some 4) none]
      (EngineState.mk [] 5 0) (by decide)
  · exact c5_insufficient_rights_amended.2 [((1 : ℤ), (4 : ℤ)), ((5 : ℤ), (9 : ℤ))] 1 6
      (by decide)

theorem sorted_strict_of_nodup_keys {l : List Event}
    (hs : l.Pairwise eventLeR) (hnd : (l.map rangeKey).Nodup) :
    l.Pairwise eventLtKey := by
  have hne : l.Pairwise (fun a b => rangeKey a ≠ rangeKey b) := List.pairwise_map.mp hnd
  exact (hs.and hne).imp (fun h => lt_of_le_of_ne h.1 h.2)

theorem insertionSort_eventLe_eq {d1 d2 : List Event} (hp : d1.Perm d2)
    (hnd : (d1.map rangeKey).Nodup) :
    List.insertionSort eventLeR d1 = List.insertionSort eventLeR d2 := by
  have hp12 : (List.insertionSort eventLeR d1).Perm (List.insertionSort eventLeR d2) :=
    (List.perm_insertionSort _ d1).trans (hp.trans (List.perm_insertionSort _ d2).symm)
  have hnd1 : ((List.insertionSort eventLeR d1).map rangeKey).Nodup :=
    (((List.perm_insertionSort eventLeR d1).map rangeKey).nodup_iff).mpr hnd
  have hnd2 : ((List.insertionSort eventLeR d2).map rangeKey).Nodup :=
    (((List.perm_insertionSort eventLeR d2).map rangeKey).nodup_iff).mpr
      ((hp.map rangeKey).nodup_iff.mp hnd)
  exact List.eq_of_perm_of_sorted hp12
    (sorted_strict_of_nodup_keys (List.sorted_insertionSort eventLeR d1) hnd1)
    (sorted_strict_of_nodup_keys (List.sorted_insertionSort eventLeR d2) hnd2)

theorem perm_eq_of_length_le_one {l1 l2 : List Event} (hp : l1.Perm l2)
    (hl : l1.length ≤ 1) : l1 = l2 := by
  rcases l1 with _ | ⟨a, rest⟩
  · exact (hp.symm.eq_nil).symm
  · rcases rest with _ | ⟨b, r2⟩
    · exact (List.perm_singleton.mp hp.symm).symm
    · simp at hl

theorem dayKeys_perm_eq {l1 l2 : List Event} (hp : l1.Perm l2) :
    dayKeys l1 = dayKeys l2 := by
  unfold dayKeys
  have hd : (l1.map Event.fecha).dedup.Perm (l2.map Event.fecha).dedup :=
    (hp.map _).dedup
  have hp12 : (List.insertionSort dateLeR (l1.map Event.fecha).dedup).Perm
      (List.insertionSort dateLeR (l2.map Event.fecha).dedup) :=
    (List.perm_insertionSort _ _).trans (hd.trans (List.perm_insertionSort _ _).symm)
  exact List.eq_of_perm_of_sorted hp12
    (List.sorted_insertionSort dateLeR _) (List.sorted_insertionSort dateLeR _)

theorem mem_dayKeys {l : List Event} {f : ℕ} :
    f ∈ dayKeys l ↔ f ∈ l.map Event.fecha := by
  unfold dayKeys
  rw [(List.perm_insertionSort _ _).mem_iff, List.mem_dedup]

theorem applyDay_perm_eq {d1 d2 : List Event} (hp : d1.Perm d2)
    (hu : DayUnique d1) (st : EngineState) : applyDay d1 st = applyDay d2 st := by
  obtain ⟨hu1, hu2, hu3, hu4, hu5, hu6⟩ := hu
  unfold applyDay
  rw [insertionSort_eventLe_eq (hp.filter _) hu1,
    insertionSort_eventLe_eq (hp.filter _) hu2,
    insertionSort_eventLe_eq (hp.filter _) hu3,
    perm_eq_of_length_le_one (hp.filter _) hu4,
    perm_eq_of_length_le_one (hp.filter _) hu5,
    perm_eq_of_length_le_one (hp.filter _) hu6]

theorem foldDays_congr {evs evs' : List Event}
    (hday : ∀ (f : ℕ) (st : EngineState),
      applyDay (evs.filter (fun e => e.fecha == f)) st
        = applyDay (evs'.filter (fun e => e.fecha == f)) st) :
    ∀ (keys : List ℕ) (st : EngineState),
      foldDays evs keys st = foldDays evs' keys st := by
  intro keys
  induction keys with
  | nil => intro st; rfl
  | cons f rest ih =>
    intro st
    unfold foldDays
    rw [hday f st]
    cases applyDay (evs'.filter (fun e => e.fecha == f)) st with
    | error e => rfl
    | ok st2 => exact ih st2

/-- C3 counterexample: two same-day nominal-value events applied in the
two possible orders produce different nominal values, so the replay is
not invariant under permutation of the event list. -/
theorem c3_determinism_counterexample :
    ([Event.mk 1 "AMPL_VALOR" none none none none (some 9),
      Event.mk 1 "AMPL_VALOR" none none none none (some 7)] : List Event).Perm
      [Event.mk 1 "AMPL_VALOR" none none none none (some 7),
       Event.mk 1 "AMPL_VALOR" none none none none (some 9)] ∧
    applyEvents [Event.mk 1 "AMPL_VALOR" none none none none (some 7),
      Event.mk 1 "AMPL_VALOR" none none none none (some 9)] 5 0
      = Except.ok ([], 9, 0, some 1) ∧
    applyEvents [Event.mk 1 "AMPL_VALOR" none none none none (some 9),
      Event.mk 1 "AMPL_VALOR" none none none none (some 7)] 5 0
      = Except.ok ([], 7, 0, some 1) ∧
    applyEvents [Event.mk 1 "AMPL_VALOR" none none none none (some 7),
      Event.mk 1 "AMPL_VALOR" none none none none (some 9)] 5 0
      ≠ applyEvents [Event.mk 1 "AMPL_VALOR" none none none none (some 9),
        Event.mk 1 "AMPL_VALOR" none none none none (some 7)] 5 0 := by
  refine ⟨by decide, by decide, by decide, by decide⟩

/-- C3 amended: the replay is invariant under permutation of the event
list provided that, within each day, the retirement, transfer and
issuance categories carry pairwise distinct range keys and the
encumbrance, nominal-value and redenomination categories carry at most
one event each; the tie on equal range keys and the input-order
processing of the unsorted categories are what the counterexample
exploits. -/
theorem c3_determinism_amended (l l' : List Event) (vn0 : ℚ) (t0 : ℤ)
    (hperm : l.Perm l') (huniq : ReplayUnique l) :
    applyEvents l vn0 t0 = applyEvents l' vn0 t0 := by
  have hperm2 : (l.map normalizeEvent).Perm (l'.map normalizeEvent) :=
    hperm.map normalizeEvent
  have hkeys : dayKeys (l.map normalizeEvent) = dayKeys (l'.map normalizeEvent) :=
    dayKeys_perm_eq hperm2
  have hday : ∀ (f : ℕ) (st : EngineState),
      applyDay ((l.map normalizeEvent).filter (fun e => e.fecha == f)) st
        = applyDay ((l'.map normalizeEvent).filter (fun e => e.fecha == f)) st := by
    intro f st
    have hdp : ((l.map normalizeEvent).filter (fun e => e.fecha == f)).Perm
        ((l'.map normalizeEvent).filter (fun e => e.fecha == f)) :=
      hperm2.filter _
    by_cases hf : f ∈ dayKeys (l.map normalizeEvent)
    · exact applyDay_perm_eq hdp (huniq f hf) st
    · have h1 : (l.map normalizeEvent).filter (fun e => e.fecha == f) = [] := by
        rw [List.filter_eq_nil]
        intro e he hc
        apply hf
        rw [mem_dayKeys]
        rw [beq_iff_eq] at hc
        rw [← hc]
        exact List.mem_map_of_mem Event.fecha he
      have h2 : (l'.map normalizeEvent).filter (fun e => e.fecha == f) = [] := by
        rw [h1] at hdp
        exact (hdp.symm.eq_nil)
      rw [h1, h2]
  simp only [applyEvents]
  rw [hkeys, foldDays_congr hday (dayKeys (l'.map normalizeEvent))
    (EngineState.mk [] vn0 t0)]

/-- Witness for C3 at a concrete two-day, three-event replay. -/
theorem c3_determinism_amended_witness :
    (([Event.mk 1 "ALTA" none (some 1) (some 1) (some 10) none,
       Event.mk 2 "TRANSMISION" (some 1) (some 2) (some 1) (some 4) none,
       Event.mk 2 "TRANSMISION" (some 1) (some 3) (some 5) (some 8) none] : List Event).Perm
      [Event.mk 2 "TRANSMISION" (some 1) (some 3) (some 5) (some 8) none,
       Event.mk 1 "ALTA" none (some 1) (some 1) (some 10) none,
       Event.mk 2 "TRANSMISION" (some 1) (some 2) (some 1) (some 4) none] ∧
     ReplayUnique [Event.mk 1 "ALTA" none (some 1) (some 1) (some 10) none,
       Event.mk 2 "TRANSMISION" (some 1) (some 2) (some 1) (some 4) none,
       Event.mk 2 "TRANSMISION" (some 1) (some 3) (some 5) (some 8) none]) ∧
    applyEvents [Event.mk 1 "ALTA" none (some 1) (some 1) (some 10) none,
      Event.mk 2 "TRANSMISION" (some 1) (some 2) (some 1) (some 4) none,
      Event.mk 2 "TRANSMISION" (some 1) (some 3) (some 5) (some 8) none] 5 0
      = applyEvents [Event.mk 2 "TRANSMISION" (some 1) (some 3) (some 5) (some 8) none,
        Event.mk 1 "ALTA" none (some 1) (some 1) (some 10) none,
        Event.mk 2 "TRANSMISION" (some 1) (some 2) (some 1) (some 4) none] 5 0 := by
  refine ⟨⟨by decide, by decide⟩, ?_⟩
  exact c3_determinism_amended _ _ 5 0 (by decide) (by decide)

theorem invBlocks_iff (bl : List Block) :
    InvBlocks bl ↔ ∀ (u : ℤ) (s1 s2 : Option ℤ),
      covered bl s1 RightType.plena u → covered bl s2 RightType.plena u → s1 = s2 := by
  constructor
  · intro h u s1 s2 hc1 hc2
    obtain ⟨b1, hb1, hs1, ht1, hu1⟩ := hc1
    obtain ⟨b2, hb2, hs2, ht2, hu2⟩ := hc2
    by_contra hne
    exact h b1 hb1 b2 hb2 ht1 ht2 (by rw [hs1, hs2]; exact hne) u ⟨hu1, hu2⟩
  · intro h b1 hb1 b2 hb2 ht1 ht2 hne u ⟨hu1, hu2⟩
    exact hne (h u b1.socio_id b2.socio_id ⟨b1, hb1, rfl, ht1, hu1⟩
      ⟨b2, hb2, rfl, ht2, hu2⟩)

theorem invBlocks_mono {bl1 bl2 : List Block}
    (hsub : ∀ (s : Option ℤ) (u : ℤ), covered bl2 s RightType.plena u →
      covered bl1 s RightType.plena u)
    (h : InvBlocks bl1) : InvBlocks bl2 := by
  rw [invBlocks_iff] at h ⊢
  intro u s1 s2 hc1 hc2
  exact h u s1 s2 (hsub s1 u hc1) (hsub s2 u hc2)

theorem covered_consolidate_mono {l : List Block} {s : Option ℤ} {rt : RightType}
    {u : ℤ} (hc : covered (consolidate l) s rt u) : covered l s rt u := by
  obtain ⟨b', hb', hs, ht, hu⟩ := hc
  obtain ⟨b, hb, hbs, hbt, hbu⟩ := consolidate_subcover hb' hu
  exact ⟨b, hb, hbs.trans hs, hbt.trans ht, hbu⟩

theorem consolidate_invBlocks {l : List Block} (h : InvBlocks l) :
    InvBlocks (consolidate l) :=
  invBlocks_mono (fun _ _ hc => covered_consolidate_mono hc) h

theorem splitBlock_sub {b b' : Block} {d h : Option ℤ} (hb' : b' ∈ splitBlock b d h) :
    b'.socio_id = b.socio_id ∧ b'.right_type = b.right_type ∧
      ∀ u, memB b' u → memB b u := by
  obtain ⟨sid, rt, bd, bh⟩ := b
  rcases d with _ | d
  · rcases List.mem_singleton.mp hb' with rfl
    exact ⟨rfl, rfl, fun u hu => hu⟩
  rcases h with _ | h
  · rw [splitBlock_h_none] at hb'
    rcases List.mem_singleton.mp hb' with rfl
    exact ⟨rfl, rfl, fun u hu => hu⟩
  rcases bd with _ | a
  · rcases List.mem_singleton.mp hb' with rfl
    exact ⟨rfl, rfl, fun u hu => hu⟩
  rcases bh with _ | z
  · rcases List.mem_singleton.mp hb' with rfl
    exact ⟨rfl, rfl, fun u hu => hu⟩
  simp only [splitBlock] at hb'
  by_cases hdis : h < a ∨ d > z
  · rw [if_pos hdis] at hb'
    rcases List.mem_singleton.mp hb' with rfl
    exact ⟨rfl, rfl, fun u hu => hu⟩
  rw [if_neg hdis] at hb'
  push_neg at hdis
  rcases List.mem_append.mp hb' with hleft | hright
  · by_cases hda : d > a
    · rw [if_pos hda] at hleft
      rcases List.mem_singleton.mp hleft with rfl
      refine ⟨rfl, rfl, fun u hu => ?_⟩
      obtain ⟨a2, z2, ha2, hz2, h1, h2⟩ := (memB_iff _ u).mp hu
      cases ha2; cases hz2
      exact (memB_iff _ u).mpr ⟨a, z, rfl, rfl, by omega⟩
    · rw [if_neg hda] at hleft
      cases hleft
  · by_cases hhz : h < z
    · rw [if_pos hhz] at hright
      rcases List.mem_singleton.mp hright with rfl
      refine ⟨rfl, rfl, fun u hu => ?_⟩
      obtain ⟨a2, z2, ha2, hz2, h1, h2⟩ := (memB_iff _ u).mp hu
      cases ha2; cases hz2
      exact (memB_iff _ u).mpr ⟨a, z, rfl, rfl, by omega⟩
    · rw [if_neg hhz] at hright
      cases hright

theorem splitBlock_avoids {b b' : Block} {d h : ℤ}
    (hb' : b' ∈ splitBlock b (some d) (some h)) :
    ∀ u, memB b' u → ¬ (d ≤ u ∧ u ≤ h) := by
  obtain ⟨sid, rt, bd, bh⟩ := b
  rcases bd with _ | a
  · rcases List.mem_singleton.mp hb' with rfl
    intro u hu
    obtain ⟨a2, z2, ha2, hz2, h1, h2⟩ := (memB_iff _ u).mp hu
    cases ha2
  rcases bh with _ | z
  · rcases List.mem_singleton.mp hb' with rfl
    intro u hu
    obtain ⟨a2, z2, ha2, hz2, h1, h2⟩ := (memB_iff _ u).mp hu
    cases hz2
  simp only [splitBlock] at hb'
  by_cases hdis : h < a ∨ d > z
  · rw [if_pos hdis] at hb'
    rcases List.mem_singleton.mp hb' with rfl
    intro u hu
    obtain ⟨a2, z2, ha2, hz2, h1, h2⟩ := (memB_iff _ u).mp hu
    cases ha2; cases hz2
    omega
  rw [if_neg hdis] at hb'
  push_neg at hdis
  rcases List.mem_append.mp hb' with hleft | hright
  · by_cases hda : d > a
    · rw [if_pos hda] at hleft
      rcases List.mem_singleton.mp hleft with rfl
      intro u hu
      obtain ⟨a2, z2, ha2, hz2, h1, h2⟩ := (memB_iff _ u).mp hu
      cases ha2; cases hz2
      omega
    · rw [if_neg hda] at hleft
      cases hleft
  · by_cases hhz : h < z
    · rw [if_pos hhz] at hright
      rcases List.mem_singleton.mp hright with rfl
      intro u hu
      obtain ⟨a2, z2, ha2, hz2, h1, h2⟩ := (memB_iff _ u).mp hu
      cases ha2; cases hz2
      omega
    · rw [if_neg hhz] at hright
      cases hright

theorem covered_vacate_mono {sid d h : Option ℤ} {bl : List Block} {s : Option ℤ}
    {rt : RightType} {u : ℤ} (hc : covered (vacate sid d h bl) s rt u) :
    covered bl s rt u := by
  obtain ⟨b', hb', hs, ht, hu⟩ := hc
  simp only [vacate] at hb'
  obtain ⟨b, hb, hmem⟩ := List.mem_flatMap.mp hb'
  by_cases hcond : b.right_type = RightType.plena ∧ b.socio_id = sid
  · rw [if_pos hcond] at hmem
    obtain ⟨hs2, ht2, hmono⟩ := splitBlock_sub hmem
    exact ⟨b, hb, hs2.symm.trans hs, ht2.symm.trans ht, hmono u hu⟩
  · rw [if_neg hcond] at hmem
    rcases List.mem_singleton.mp hmem with rfl
    exact ⟨b', hb, hs, ht, hu⟩

theorem vacate_removes {sid : Option ℤ} {d h : ℤ} {bl : List Block} {u : ℤ}
    (hd : d ≤ u) (hh : u ≤ h) :
    ¬ covered (vacate sid (some d) (some h) bl) sid RightType.plena u := by
  intro hc
  obtain ⟨b', hb', hs, ht, hu⟩ := hc
  simp only [vacate] at hb'
  obtain ⟨b, hb, hmem⟩ := List.mem_flatMap.mp hb'
  by_cases hcond : b.right_type = RightType.plena ∧ b.socio_id = sid
  · rw [if_pos hcond] at hmem
    exact splitBlock_avoids hmem u hu ⟨hd, hh⟩
  · rw [if_neg hcond] at hmem
    rcases List.mem_singleton.mp hmem with rfl
    exact hcond ⟨ht, hs⟩

theorem applyBaja_inv {ev : Event} {bl : List Block} (hinv : InvBlocks bl) :
    InvBlocks (applyBaja ev bl) := by
  apply invBlocks_mono _ hinv
  intro s u hc
  simp only [applyBaja] at hc
  exact covered_vacate_mono (covered_consolidate_mono hc)

theorem applyEnc_inv {ev : Event} {bl : List Block} (hinv : InvBlocks bl) :
    InvBlocks (applyEnc ev bl) := by
  apply invBlocks_mono _ hinv
  intro s u hc
  simp only [applyEnc] at hc
  by_cases ht : (ev.tipo == "USUFRUCTO") = true
  · rw [if_pos ht] at hc
    obtain ⟨b, hb, hs, htype, hu⟩ := covered_consolidate_mono hc
    rcases List.mem_append.mp hb with hold | hnew
    · exact covered_vacate_mono ⟨b, hold, hs, htype, hu⟩
    · rcases List.mem_cons.mp hnew with rfl | hnew2
      · cases htype
      · rcases List.mem_singleton.mp hnew2 with rfl
        cases htype
  · rw [if_neg ht] at hc
    obtain ⟨b, hb, hs, htype, hu⟩ := covered_consolidate_mono hc
    rcases List.mem_append.mp hb with hold | hnew
    · exact ⟨b, hold, hs, htype, hu⟩
    · rcases List.mem_singleton.mp hnew with rfl
      by_cases hp : (ev.tipo == "PIGNORACION") = true
      · rw [if_pos hp] at htype
        cases htype
      · rw [if_neg hp] at htype
        cases htype

theorem applyTrans_cov {ev : Event} {bl : List Block} {s : Option ℤ} {u : ℤ}
    (hc : covered (applyTrans ev bl) s RightType.plena u) :
    covered (vacate ev.socio_transmite ev.rango_desde ev.rango_hasta bl) s
        RightType.plena u ∨
      (s = ev.socio_adquiere ∧ inEvRange ev u) := by
  simp only [applyTrans] at hc
  obtain ⟨b, hb, hs, htype, hu⟩ := covered_consolidate_mono hc
  rcases List.mem_append.mp hb with hold | hnew
  · exact Or.inl (covered_consolidate_mono ⟨b, hold, hs, htype, hu⟩)
  · rcases List.mem_singleton.mp hnew with rfl
    obtain ⟨d, h, hd, hh, h1, h2⟩ := (memB_iff _ u).mp hu
    exact Or.inr ⟨hs.symm, d, h, hd, hh, h1, h2⟩

theorem applyTrans_inv {ev : Event} {bl : List Block} (hinv : InvBlocks bl)
    (hpre : PrecondTrans ev bl) : InvBlocks (applyTrans ev bl) := by
  have hinv2 := (invBlocks_iff bl).mp hinv
  rw [invBlocks_iff]
  intro u s1 s2 hc1 hc2
  rcases applyTrans_cov hc1 with h1 | ⟨rfl, hr1⟩ <;>
    rcases applyTrans_cov hc2 with h2 | ⟨rfl, hr2⟩
  · exact hinv2 u s1 s2 (covered_vacate_mono h1) (covered_vacate_mono h2)
  · exfalso
    obtain ⟨d, h, hd, hh, hdu, huh⟩ := hr2
    have hcov := hpre u ⟨d, h, hd, hh, hdu, huh⟩
    have hs1 : s1 = ev.socio_transmite :=
      hinv2 u s1 ev.socio_transmite (covered_vacate_mono h1) hcov
    rw [hs1, hd, hh] at h1
    exact vacate_removes hdu huh h1
  · exfalso
    obtain ⟨d, h, hd, hh, hdu, huh⟩ := hr1
    have hcov := hpre u ⟨d, h, hd, hh, hdu, huh⟩
    have hs2 : s2 = ev.socio_transmite :=
      hinv2 u s2 ev.socio_transmite (covered_vacate_mono h2) hcov
    rw [hs2, hd, hh] at h2
    exact vacate_removes hdu huh h2
  · rfl

theorem applyAltaB_cov {ev : Event} {bl : List Block} {s : Option ℤ} {u : ℤ}
    (hc : covered (applyAltaB ev bl) s RightType.plena u) :
    covered bl s RightType.plena u ∨ (s = ev.socio_adquiere ∧ inEvRange ev u) := by
  simp only [applyAltaB] at hc
  obtain ⟨b, hb, hs, htype, hu⟩ := covered_consolidate_mono hc
  rcases List.mem_append.mp hb with hold | hnew
  · exact Or.inl ⟨b, hold, hs, htype, hu⟩
  · rcases List.mem_singleton.mp hnew with rfl
    obtain ⟨d, h, hd, hh, h1, h2⟩ := (memB_iff _ u).mp hu
    exact Or.inr ⟨hs.symm, d, h, hd, hh, h1, h2⟩

theorem applyAltaB_inv {ev : Event} {bl : List Block} (hinv : InvBlocks bl)
    (hpre : PrecondAlta ev bl) : InvBlocks (applyAltaB ev bl) := by
  have hinv2 := (invBlocks_iff bl).mp hinv
  rw [invBlocks_iff]
  intro u s1 s2 hc1 hc2
  rcases applyAltaB_cov hc1 with h1 | ⟨rfl, hr1⟩ <;>
    rcases applyAltaB_cov hc2 with h2 | ⟨rfl, hr2⟩
  · exact hinv2 u s1 s2 h1 h2
  · exact absurd h1 (hpre u hr2 s1)
  · exact absurd h2 (hpre u hr1 s2)
  · rfl

theorem buildBlocks_lb (alloc : Option ℤ → ℤ) :
    ∀ (socios : List (Option ℤ)) (c : ℤ) (b : Block), b ∈ buildBlocks alloc socios c →
      ∀ u, memB b u → c ≤ u := by
  intro socios
  induction socios with
  | nil => intro c b hb; cases hb
  | cons s rest ih =>
    intro c b hb u hu
    unfold buildBlocks at hb
    by_cases hs : alloc s ≤ 0
    · rw [if_pos hs] at hb
      exact ih c b hb u hu
    · rw [if_neg hs] at hb
      rcases List.mem_cons.mp hb with rfl | hmem
      · obtain ⟨a2, z2, ha2, hz2, h1, h2⟩ := (memB_iff _ u).mp hu
        cases ha2; cases hz2
        omega
      · have := ih (c + alloc s) b hmem u hu
        omega

theorem buildBlocks_invBlocks (alloc : Option ℤ → ℤ) :
    ∀ (socios : List (Option ℤ)) (c : ℤ), InvBlocks (buildBlocks alloc socios c) := by
  intro socios
  induction socios with
  | nil => intro c b1 hb1; cases hb1
  | cons s rest ih =>
    intro c b1 hb1 b2 hb2 ht1 ht2 hne u ⟨hu1, hu2⟩
    unfold buildBlocks at hb1 hb2
    by_cases hs : alloc s ≤ 0
    · rw [if_pos hs] at hb1 hb2
      exact ih c b1 hb1 b2 hb2 ht1 ht2 hne u ⟨hu1, hu2⟩
    rw [if_neg hs] at hb1 hb2
    rcases List.mem_cons.mp hb1 with rfl | hm1 <;> rcases List.mem_cons.mp hb2 with h2e | hm2
    · exact hne (by rw [h2e])
    · obtain ⟨a2, z2, ha2, hz2, hx1, hx2⟩ := (memB_iff _ u).mp hu1
      cases ha2; cases hz2
      have := buildBlocks_lb alloc rest (c + alloc s) b2 hm2 u hu2
      omega
    · rcases h2e with rfl
      obtain ⟨a2, z2, ha2, hz2, hx1, hx2⟩ := (memB_iff _ u).mp hu2
      cases ha2; cases hz2
      have := buildBlocks_lb alloc rest (c + alloc s) b1 hm1 u hu1
      omega
    · exact ih (c + alloc s) b1 hm1 b2 hm2 ht1 ht2 hne u ⟨hu1, hu2⟩

theorem redenStep_inv {day : List Event} {bl : List Block} {vn : ℚ} {t : ℤ}
    {b5 : List Block} {vn5 : ℚ} {t5 : ℤ} (hinv : InvBlocks bl)
    (h : redenStep day bl vn t = Except.ok (b5, vn5, t5)) : InvBlocks b5 := by
  simp only [redenStep] at h
  split at h
  · split at h
    · exact Except.noConfusion h
    · split at h
      · exact Except.noConfusion h
      · split at h
        · injection h with h2
          injection h2 with h3 h4
          rw [← h3]
          exact consolidate_invBlocks hinv
        · injection h with h2
          injection h2 with h3 h4
          rw [← h3]
          exact consolidate_invBlocks (buildBlocks_invBlocks _ _ _)
  · injection h with h2
    injection h2 with h3 h4
    rw [← h3]
    exact hinv

theorem precondFoldP_true (app : Event → List Block → List Block) :
    ∀ (evs : List Event) (bl : List Block),
      PrecondFoldP (fun _ _ => True) app evs bl := by
  intro evs
  induction evs with
  | nil => intro bl; trivial
  | cons ev rest ih => intro bl; exact ⟨trivial, ih (app ev bl)⟩

theorem foldStates_inv (Pre : Event → List Block → Prop)
    (app : Event → List Block → List Block)
    (hstep : ∀ ev bl, InvBlocks bl → Pre ev bl → InvBlocks (app ev bl)) :
    ∀ (evs : List Event) (bl : List Block), InvBlocks bl →
      PrecondFoldP Pre app evs bl →
      (∀ x ∈ foldStates app evs bl, InvBlocks x) ∧
        InvBlocks (evs.foldl (fun b e => app e b) bl) := by
  intro evs
  induction evs with
  | nil =>
    intro bl h _
    exact ⟨fun x hx => absurd hx (List.not_mem_nil x), h⟩
  | cons ev rest ih =>
    intro bl h hpre
    obtain ⟨hp, hrest⟩ := hpre
    have h2 := hstep ev bl h hp
    obtain ⟨ha, hb⟩ := ih (app ev bl) h2 hrest
    refine ⟨?_, hb⟩
    intro x hx
    rcases List.mem_cons.mp hx with rfl | hx2
    · exact h2
    · exact ha x hx2

theorem foldl_applyAlta_fst :
    ∀ (altas : List Event) (bl : List Block) (t : ℤ),
      (altas.foldl (fun p ev => applyAlta ev p) (bl, t)).1
        = altas.foldl (fun b ev => applyAltaB ev b) bl := by
  intro altas
  induction altas with
  | nil => intro bl t; rfl
  | cons ev rest ih =>
    intro bl t
    rw [List.foldl_cons, List.foldl_cons]
    exact ih (applyAltaB ev bl) _

theorem redenTrace_inv {redens : List Event} {bl : List Block} {vn : ℚ} {t : ℤ}
    (hinv : InvBlocks bl) : ∀ x ∈ redenTrace redens bl vn t, InvBlocks x := by
  intro x hx
  unfold redenTrace at hx
  cases hred : redenStep redens bl vn t with
  | error e =>
    rw [hred] at hx
    cases hx
  | ok trip =>
    obtain ⟨b5, vn5, t5⟩ := trip
    rw [hred] at hx
    rcases List.mem_singleton.mp hx with rfl
    exact redenStep_inv hinv hred

theorem dayCore_inv (bajas transs altas encs valors redens : List Event)
    (st : EngineState) (hinv : InvBlocks st.blocks)
    (hpT : PrecondFoldP PrecondTrans applyTrans transs
      (bajas.foldl (fun bl ev => applyBaja ev bl) st.blocks))
    (hpA : PrecondFoldP PrecondAlta applyAltaB altas
      (transs.foldl (fun bl ev => applyTrans ev bl)
        (bajas.foldl (fun bl ev => applyBaja ev bl) st.blocks))) :
    (∀ bl ∈ dayStatesCore bajas transs altas encs valors redens st, InvBlocks bl) ∧
      ∀ st2, applyDayCore bajas transs altas encs valors redens st = Except.ok st2 →
        InvBlocks st2.blocks := by
  have h1 := foldStates_inv (fun _ _ => True) applyBaja
    (fun ev bl hi _ => applyBaja_inv hi) bajas st.blocks hinv
    (precondFoldP_true applyBaja bajas st.blocks)
  have h2 := foldStates_inv PrecondTrans applyTrans
    (fun ev bl hi hp => applyTrans_inv hi hp) transs _ h1.2 hpT
  have h3 := foldStates_inv PrecondAlta applyAltaB
    (fun ev bl hi hp => applyAltaB_inv hi hp) altas _ h2.2 hpA
  have h4 := foldStates_inv (fun _ _ => True) applyEnc
    (fun ev bl hi _ => applyEnc_inv hi) encs _ h3.2
    (precondFoldP_true applyEnc encs _)
  constructor
  · intro bl hbl
    simp only [dayStatesCore] at hbl
    rw [foldl_applyAlta_fst] at hbl
    simp only [List.mem_append] at hbl
    rcases hbl with ((((hm | hm) | hm) | hm) | hm)
    · exact h1.1 bl hm
    · exact h2.1 bl hm
    · exact h3.1 bl hm
    · exact h4.1 bl hm
    · exact redenTrace_inv h4.2 bl hm
  · intro st2 h
    simp only [applyDayCore] at h
    rw [foldl_applyAlta_fst] at h
    split at h
    · exact Except.noConfusion h
    · rename_i b5 vn5 t5 heq
      injection h with h2
      rw [← h2]
      exact redenStep_inv h4.2 heq

theorem applyDay_inv (day : List Event) (st : EngineState)
    (hinv : InvBlocks st.blocks) (hpre : PrecondDay day st) :
    (∀ bl ∈ dayStates day st, InvBlocks bl) ∧
      ∀ st2, applyDay day st = Except.ok st2 → InvBlocks st2.blocks := by
  obtain ⟨hpT, hpA⟩ := hpre
  exact dayCore_inv
    (List.insertionSort eventLeR (day.filter (fun e => isBaja e)))
    (List.insertionSort eventLeR (day.filter (fun e => isTrans e)))
    (List.insertionSort eventLeR (day.filter (fun e => isAlta e)))
    (day.filter (fun e => isEncumbrance e))
    (day.filter (fun e => isValor e))
    (day.filter (fun e => isReden e))
    st hinv hpT hpA

theorem replayStates_inv (evs : List Event) :
    ∀ (keys : List ℕ) (st : EngineState), InvBlocks st.blocks →
      PrecondDays evs keys st →
      (∀ bl ∈ replayStates evs keys st, InvBlocks bl) ∧
        ∀ st2, foldDays evs keys st = Except.ok st2 → InvBlocks st2.blocks := by
  intro keys
  induction keys with
  | nil =>
    intro st h _
    refine ⟨fun x hx => absurd hx (List.not_mem_nil x), ?_⟩
    intro st2 h2
    injection h2 with h3
    rw [← h3]
    exact h
  | cons f rest ih =>
    intro st h hpre
    obtain ⟨hday, hnext⟩ := hpre
    have hd := applyDay_inv (evs.filter (fun e => e.fecha == f)) st h hday
    constructor
    · intro bl hbl
      simp only [replayStates] at hbl
      rcases List.mem_append.mp hbl with hm | hm
      · exact hd.1 bl hm
      · cases hap : applyDay (evs.filter (fun e => e.fecha == f)) st with
        | error e =>
          rw [hap] at hm
          cases hm
        | ok st2 =>
          rw [hap] at hm
          exact (ih st2 (hd.2 st2 hap) (hnext st2 hap)).1 bl hm
    · intro st2 h2
      simp only [foldDays] at h2
      cases hap : applyDay (evs.filter (fun e => e.fecha == f)) st with
      | error e =>
        rw [hap] at h2
        exact Except.noConfusion h2
      | ok st3 =>
        rw [hap] at h2
        exact (ih st3 (hd.2 st3 hap) (hnext st3 hap)).2 st2 h2

/-- C6: counterexample.  The engine applies issuance events without any
overlap check, so a day with two issuances over intersecting ranges for
distinct holders succeeds and returns two full-ownership blocks of
different holders that share units 5 through 10: the disjointness
invariant does not hold unconditionally during or after the replay. -/
theorem c6_disjointness_counterexample :
    applyEvents
        [Event.mk 1 "ALTA" none (some 1) (some 1) (some 10) none,
         Event.mk 1 "ALTA" none (some 2) (some 5) (some 15) none] 5 0
      = Except.ok ([Block.mk (some 1) RightType.plena (some 1) (some 10),
          Block.mk (some 2) RightType.plena (some 5) (some 15)], 5, 21, some 1) ∧
      ¬ InvBlocks [Block.mk (some 1) RightType.plena (some 1) (some 10),
          Block.mk (some 2) RightType.plena (some 5) (some 15)] := by
  refine ⟨by decide, ?_⟩
  intro h
  exact h (Block.mk (some 1) RightType.plena (some 1) (some 10)) (by decide)
    (Block.mk (some 2) RightType.plena (some 5) (some 15)) (by decide)
    rfl rfl (by decide) 7 ⟨by decide, by decide⟩

/-- C6 (amended): under the per-event preconditions — each transfer or
succession range fully owned in full-ownership blocks by its transmitter,
and each issuance range free of full-ownership coverage, both checked
against the block list current when that event is applied — every block
list the engine holds during the replay (after each applied retirement,
transfer, issuance and encumbrance event, and at each day close after the
redenomination step) satisfies the disjointness invariant: no two
full-ownership blocks of distinct holders share a unit.  In particular
the returned block list satisfies it. -/
theorem c6_disjointness_amended (events : List Event) (vn0 : ℚ) (t0 : ℤ)
    (hpre : PrecondReplay events vn0 t0) :
    (∀ bl ∈ replayStates (events.map normalizeEvent)
        (dayKeys (events.map normalizeEvent)) (EngineState.mk [] vn0 t0),
      InvBlocks bl) ∧
      ∀ res, applyEvents events vn0 t0 = Except.ok res → InvBlocks res.1 := by
  have hinit : InvBlocks (EngineState.mk [] vn0 t0).blocks := by
    intro b1 hb1
    cases hb1
  have h := replayStates_inv (events.map normalizeEvent)
    (dayKeys (events.map normalizeEvent)) (EngineState.mk [] vn0 t0) hinit hpre
  refine ⟨h.1, ?_⟩
  intro res hres
  simp only [applyEvents] at hres
  split at hres
  · exact Except.noConfusion hres
  · rename_i st heq
    injection hres with h2
    rw [← h2]
    exact h.2 st heq

/-- Witness for the amended C6 theorem: a two-day replay — an issuance of
units 1 to 10 for holder 1, then a transfer of units 1 to 4 to holder 2 —
meets the preconditions, and the theorem yields the invariant for the
returned blocks. -/
theorem c6_disjointness_amended_witness :
    InvBlocks [Block.mk (some 1) RightType.plena (some 5) (some 10),
      Block.mk (some 2) RightType.plena (some 1) (some 4)] := by
  have hpre : PrecondReplay
      [Event.mk 1 "ALTA" none (some 1) (some 1) (some 10) none,
       Event.mk 2 "TRANSMISION" (some 1) (some 2) (some 1) (some 4) none] 5 0 := by
    have hmap : ([Event.mk 1 "ALTA" none (some 1) (some 1) (some 10) none,
          Event.mk 2 "TRANSMISION" (some 1) (some 2) (some 1) (some 4) none].map
            normalizeEvent)
        = [Event.mk 1 "ALTA" none (some 1) (some 1) (some 10) none,
           Event.mk 2 "TRANSMISION" (some 1) (some 2) (some 1) (some 4) none] := by
      decide
    have hkeys : dayKeys
        [Event.mk 1 "ALTA" none (some 1) (some 1) (some 10) none,
         Event.mk 2 "TRANSMISION" (some 1) (some 2) (some 1) (some 4) none]
        = [1, 2] := by
      decide
    unfold PrecondReplay
    rw [hmap, hkeys]
    simp only [PrecondDays, PrecondDay]
    refine ⟨⟨trivial, ?_, trivial⟩, ?_⟩
    · intro u hu s hc
      obtain ⟨b, hb, -⟩ := hc
      exact absurd hb (List.not_mem_nil b)
    · intro st2 hst2
      have he : applyDay (List.filter (fun e => e.fecha == 1)
          [Event.mk 1 "ALTA" none (some 1) (some 1) (some 10) none,
           Event.mk 2 "TRANSMISION" (some 1) (some 2) (some 1) (some 4) none])
          (EngineState.mk [] 5 0)
          = Except.ok (EngineState.mk
              [Block.mk (some 1) RightType.plena (some 1) (some 10)] 5 10) := by
        decide
      rw [he] at hst2
      injection hst2 with h5
      subst h5
      refine ⟨⟨⟨?_, trivial⟩, trivial⟩, ?_⟩
      · intro u hu
        obtain ⟨d, h, hd, hh, h1, h2⟩ := hu
        have hd2 : (some (1 : ℤ)) = some d := hd
        have hh2 : (some (4 : ℤ)) = some h := hh
        injection hd2 with hd3
        injection hh2 with hh3
        refine ⟨Block.mk (some 1) RightType.plena (some 1) (some 10), by decide,
          rfl, rfl, (memB_iff _ u).mpr ⟨1, 10, rfl, rfl, by omega, by omega⟩⟩
      · intro st3 hst3
        trivial
  exact (c6_disjointness_amended _ 5 0 hpre).2
    ([Block.mk (some 1) RightType.plena (some 5) (some 10),
      Block.mk (some 2) RightType.plena (some 1) (some 4)], 5, 10, some 2)
    (by decide)

end LibroSocios
